import Mathlib

set_option maxHeartbeats 1000000

namespace LearnHtml

variable {K : Type} [LinearOrder K]

/-! ## Embedding of `src/compat.py` (Python 3 branch)

On Python 3, `bytes_` is `bytes` and `unicode_` is `str`.  A Python runtime
value is modelled as either a `str` (a sequence of Unicode code points), a
`bytes` (a sequence of byte values) or some other object.  The default
`'utf-8'` codec of `bytes.decode` / `str.encode` is modelled exactly with
strict error handling: `decode` rejects malformed UTF-8 (truncated
sequences, overlong forms, surrogates, code points above `0x10FFFF`) and
`encode` rejects surrogate code points; a raised `UnicodeError` is
modelled as `Option.none`. -/

/-- A UTF-8 continuation byte, `0x80..0xBF`. -/
def contB (b : Nat) : Bool := 0x80 ≤ b && b < 0xC0

/-- Decode one UTF-8 scalar value from the front of a byte sequence,
returning the code point and the remaining bytes.  Acceptance is exactly
that of Python's strict `'utf-8'` codec: overlong forms, surrogates and
code points above `0x10FFFF` are rejected. -/
def decodeOne : List Nat → Option (Nat × List Nat)
  | [] => none
  | b1 :: t =>
    if b1 < 0x80 then some (b1, t)
    else if b1 < 0xC2 then none
    else if b1 < 0xE0 then
      match t with
      | b2 :: t2 =>
        if contB b2 then some ((b1 - 0xC0) * 0x40 + (b2 - 0x80), t2) else none
      | [] => none
    else if b1 < 0xF0 then
      match t with
      | b2 :: b3 :: t3 =>
        if contB b2 && contB b3 then
          if 0x800 ≤ (b1 - 0xE0) * 0x1000 + (b2 - 0x80) * 0x40 + (b3 - 0x80) ∧
              ¬(0xD800 ≤ (b1 - 0xE0) * 0x1000 + (b2 - 0x80) * 0x40 + (b3 - 0x80) ∧
                (b1 - 0xE0) * 0x1000 + (b2 - 0x80) * 0x40 + (b3 - 0x80) < 0xE000) then
            some ((b1 - 0xE0) * 0x1000 + (b2 - 0x80) * 0x40 + (b3 - 0x80), t3)
          else none
        else none
      | _ => none
    else if b1 < 0xF5 then
      match t with
      | b2 :: b3 :: b4 :: t4 =>
        if contB b2 && contB b3 && contB b4 then
          if 0x10000 ≤ (b1 - 0xF0) * 0x40000 + (b2 - 0x80) * 0x1000 +
                (b3 - 0x80) * 0x40 + (b4 - 0x80) ∧
              (b1 - 0xF0) * 0x40000 + (b2 - 0x80) * 0x1000 +
                (b3 - 0x80) * 0x40 + (b4 - 0x80) < 0x110000 then
            some ((b1 - 0xF0) * 0x40000 + (b2 - 0x80) * 0x1000 +
              (b3 - 0x80) * 0x40 + (b4 - 0x80), t4)
          else none
        else none
      | _ => none
    else none

/-- Fuel-driven loop of the decoder; one unit of fuel per decoded character
suffices since each character consumes at least one byte. -/
def utf8DecodeGo : Nat → List Nat → Option (List Nat)
  | _, [] => some []
  | 0, _ :: _ => none
  | fuel + 1, b1 :: t =>
    match decodeOne (b1 :: t) with
    | some (c, rest) => (utf8DecodeGo fuel rest).map (c :: ·)
    | none => none

/-- Strict UTF-8 decoding of a whole byte sequence into code points:
Python's `bytes.decode('utf-8')`, with a raised `UnicodeDecodeError`
modelled as `none`. -/
def utf8Decode (l : List Nat) : Option (List Nat) := utf8DecodeGo l.length l

/-- UTF-8 encoding of a single code point: Python's `str.encode('utf-8')`
restricted to one character (fails on surrogates). -/
def utf8EncodeChar (c : Nat) : Option (List Nat) :=
  if c < 0x80 then some [c]
  else if c < 0x800 then some [0xC0 + c / 0x40, 0x80 + c % 0x40]
  else if c < 0xD800 then some [0xE0 + c / 0x1000, 0x80 + c / 0x40 % 0x40, 0x80 + c % 0x40]
  else if c < 0xE000 then none
  else if c < 0x10000 then some [0xE0 + c / 0x1000, 0x80 + c / 0x40 % 0x40, 0x80 + c % 0x40]
  else if c < 0x110000 then
    some [0xF0 + c / 0x40000, 0x80 + c / 0x1000 % 0x40, 0x80 + c / 0x40 % 0x40, 0x80 + c % 0x40]
  else none

/-- UTF-8 encoding of a code-point sequence (Python's `str.encode('utf-8')`,
a raised `UnicodeEncodeError` modelled as `none`). -/
def utf8Encode : List Nat → Option (List Nat)
  | [] => some []
  | c :: t =>
    match utf8EncodeChar c, utf8Encode t with
    | some bs, some rest => some (bs ++ rest)
    | _, _ => none

/-- A Python runtime value as seen by the casts of `compat.py`: a `str`
(list of code points), a `bytes` (list of byte values), or any other
object. -/
inductive PyVal : Type
  | pstr (codepoints : List Nat)
  | pbytes (bs : List Nat)
  | pother (o : Nat)
deriving DecidableEq

/-- `compat.str_cast` (Python 3 branch): if the input is `bytes`, decode it
with the given codec (default `'utf-8'`), otherwise return it unchanged. -/
def str_cast (maybe_bytes : PyVal) : Option PyVal :=
  match maybe_bytes with
  | .pbytes b => (utf8Decode b).map .pstr
  | v => some v

/-- `compat.bytes_cast` (Python 3 branch): if the input is `str`, encode it
with the given codec (default `'utf-8'`), otherwise return it unchanged. -/
def bytes_cast (maybe_str : PyVal) : Option PyVal :=
  match maybe_str with
  | .pstr s => (utf8Encode s).map .pbytes
  | v => some v

/-! ## Embedding of `src/utils.py`: `get_random_split`

Group keys live in an arbitrary linearly ordered type (urls are strings,
compared lexicographically; tests use integers).  `np.unique` returns the
sorted distinct values; the subsequent in-place `np.random.shuffle` draws a
permutation from the *global* NumPy random state, which we model as a
function `rng` applied to the unique-key list (the splitter itself has no
seed parameter).  Python slice bounds are integers with clamping and
from-the-end indexing for negative values, exactly as NumPy applies them. -/

/-- Insert into a sorted list (ascending). -/
def insertLe (x : K) : List K → List K
  | [] => [x]
  | y :: t => if x ≤ y then x :: y :: t else y :: insertLe x t

/-- Insertion sort (ascending). -/
def isort : List K → List K
  | [] => []
  | x :: t => insertLe x (isort t)

/-- `np.unique`: the sorted list of distinct values of the input. -/
def npUnique (l : List K) : List K := isort l.dedup

/-- Resolution of one Python slice bound against length `n`: negative
indices count from the end, and bounds are clamped to `[0, n]`. -/
def npSliceIdx (n : Nat) (i : ℤ) : Nat := if i < 0 then n - i.natAbs else min i.toNat n

/-- `arr[i:j]` (unit step) on a list, with Python bound semantics. -/
def npSlice (l : List K) (i j : ℤ) : List K :=
  (l.take (npSliceIdx l.length j)).drop (npSliceIdx l.length i)

/-- `np.isin(key, vals)`: the elementwise membership mask over `key`. -/
def npIsin (key : List K) (vals : List K) : List Bool :=
  key.map (fun k => decide (k ∈ vals))

/-- `np.cumsum([0] + proportions)`: running sums starting at `0`. -/
def cumsum0 (proportions : List ℚ) : List ℚ := proportions.scanl (· + ·) 0

/-- `np.floor(np.cumsum([0] + proportions) * unique_keys.size).astype(int)`. -/
def splitPoints (proportions : List ℚ) (n : Nat) : List ℤ :=
  (cumsum0 proportions).map (fun q => ⌊q * (n : ℚ)⌋)

/-- `utils.get_random_split(key, proportions)`.  The in-place
`np.random.shuffle(unique_keys)` is modelled by `rng`, the permutation that
the ambient global NumPy random state produces at call time. -/
def get_random_split (key : List K) (proportions : List ℚ) (rng : List K → List K) :
    List (List Bool) :=
  let unique_keys := rng (npUnique key)
  let split_points := splitPoints proportions unique_keys.length
  (split_points.zip split_points.tail).map
    (fun ij => npIsin key (npSlice unique_keys ij.1 ij.2))

/-- The spec's slice boundary for partition `i`: the floor of the
cumulative proportion times the number of unique keys. -/
def specSplitBound (proportions : List ℚ) (n : Nat) (i : Nat) : ℤ :=
  ⌊(proportions.take i).sum * (n : ℚ)⌋

/-- Modelled from the spec's algorithm description: the row mask of
partition `i` marks row `r` iff `r`'s group key lies in slice `i` of the
shuffled unique keys, slice `i` spanning boundaries `i` and `i+1`. -/
def specSplitMask (key : List K) (proportions : List ℚ) (u : List K) (i : Nat) :
    List Bool :=
  key.map fun k =>
    decide (k ∈ npSlice u (specSplitBound proportions (npUnique key).length i)
      (specSplitBound proportions (npUnique key).length (i + 1)))

/-- Index of the first occurrence of a value. -/
def idxOf {α : Type} [DecidableEq α] (k : α) : List α → Nat
  | [] => 0
  | x :: t => if k = x then 0 else idxOf k t + 1

/-- The distinct group keys of the rows marked `true` by a row mask: the
unique group keys "received" by that partition. -/
def trueKeys (key : List K) (mask : List Bool) : List K :=
  ((key.zip mask).filterMap fun km => if km.2 then some km.1 else none).dedup

/-! ## Embedding of `src/tf_utils/numpy_input.py`: `get_numpy_dataset`

A dask dataframe is a list of column names and a list of rows, each row a
list of cell values positionally aligned with the column names.  Column
names are symbols (the group identifiers `url` and `path`, the label
`content_label`, and numbered feature columns).  Cell values are modelled
as rationals: the `url`/`path` cells only ever meet equality and ordering,
and the numeric cells are the exact values of the parsed CSV numbers
(binary64 values are exactly representable as rationals).

`np.argsort` is called with its default `kind='quicksort'`, whose order
among equal elements is not part of NumPy's contract, so the argsort result
is modelled as a parameter `srt` that theorems constrain to be a sorting
permutation of the row indices.  `np.random` is not involved here. -/

/-- A column name of the feature CSVs. -/
inductive Col : Type
  | url
  | path
  | content_label
  | feat (i : Nat)
deriving DecidableEq

/-- A dask/pandas dataframe. -/
structure Frame : Type where
  cols : List Col
  rows : List (List ℚ)
deriving DecidableEq

/-- `ddf[c]`: the values of column `c` (positional lookup of the column). -/
def colVals (f : Frame) (c : Col) : List ℚ :=
  f.rows.map fun r => r.getD (idxOf c f.cols) 0

/-- `ddf.drop(cs, axis=1)`: remove the named columns, keeping the order of
the remaining ones. -/
def dropCols (f : Frame) (cs : List Col) : Frame where
  cols := f.cols.filter fun c => decide (c ∉ cs)
  rows := f.rows.map fun r =>
    ((f.cols.zip r).filter fun p => decide (p.1 ∉ cs)).map Prod.snd

/-- `ddf[cs]`: keep exactly the named columns, in the given order. -/
def selectCols (f : Frame) (cs : List Col) : Frame where
  cols := cs
  rows := f.rows.map fun r => cs.map fun c => r.getD (idxOf c f.cols) 0

/-- The feature block of `get_numpy_dataset`: all columns except the group
identifiers and the label, unless `data_cols` overrides the selection
(`X_ddf = ddf.drop([url, path, content_label], axis=1)`, then
`X_ddf = ddf[data_cols]` when `data_cols is not None`). -/
def featFrame (ddf : Frame) (data_cols : Option (List Col)) : Frame :=
  match data_cols with
  | some cs => selectCols ddf cs
  | none => dropCols ddf [Col.url, Col.path, Col.content_label]

/-- A scipy COO/CSR sparse matrix: the shape and the list of
`(row, column, value)` entries of the nonzero cells.  `.tocsr()` changes
only the internal layout, not the stored entries, so one structure models
both. -/
structure COO : Type where
  nrows : Nat
  ncols : Nat
  entries : List (Nat × Nat × ℚ)
deriving DecidableEq

/-- Entries of one matrix row, scanning cells left to right: nonzero cells
are recorded with their coordinates. -/
def rowEntriesFrom (i j : Nat) : List ℚ → List (Nat × Nat × ℚ)
  | [] => []
  | v :: t =>
    if v = 0 then rowEntriesFrom i (j + 1) t
    else (i, j, v) :: rowEntriesFrom i (j + 1) t

/-- Entries of a matrix, row by row. -/
def entriesFrom (i : Nat) : List (List ℚ) → List (Nat × Nat × ℚ)
  | [] => []
  | r :: rs => rowEntriesFrom i 0 r ++ entriesFrom (i + 1) rs

/-- `sparse.COO(dense)`: record the coordinates and values of the nonzero
cells. -/
def toCOO (rows : List (List ℚ)) : COO where
  nrows := rows.length
  ncols := (rows.headD []).length
  entries := entriesFrom 0 rows

/-- Round a rational to an integer, nearest, ties to even. -/
def rne (x : ℚ) : ℤ :=
  if x - ⌊x⌋ < 1/2 then ⌊x⌋
  else if 1/2 < x - ⌊x⌋ then ⌊x⌋ + 1
  else if ⌊x⌋ % 2 = 0 then ⌊x⌋ else ⌊x⌋ + 1

/-- `astype('float32')` on one value: IEEE-754 binary32
round-to-nearest-even on the 24-bit-significand grid.  The model covers the
binary32 normal range; overflow to infinity and subnormal underflow do not
arise for the feature values considered. -/
def roundF32 (q : ℚ) : ℚ :=
  if q = 0 then 0
  else
    (if q < 0 then (-1 : ℚ) else 1) *
      (rne (|q| * 2 ^ (23 - Int.log 2 |q|)) : ℚ) * 2 ^ (Int.log 2 |q| - 23)

/-- `.astype('float32')` on a sparse matrix: cast the stored values,
keeping the coordinates. -/
def cooCast32 (m : COO) : COO where
  nrows := m.nrows
  ncols := m.ncols
  entries := m.entries.map fun e => (e.1, e.2.1, roundF32 e.2.2)

/-- Reading cell `(i, j)` of a COO/CSR matrix: cells off the stored entry
list are zero (duplicate coordinates sum, as in scipy). -/
def spGet (m : COO) (i j : Nat) : ℚ :=
  ((m.entries.filter fun e => decide (e.1 = i) && decide (e.2.1 = j)).map
    fun e => e.2.2).sum

/-- Reading cell `(i, j)` of a dense matrix. -/
def dGet (rows : List (List ℚ)) (i j : Nat) : ℚ := (rows.getD i []).getD j 0

/-- NumPy fancy indexing `arr[idx]` (out-of-range indices do not occur in
the uses below: `idx` is always a permutation of the positions). -/
def npIndex {α : Type} (arr : List α) (d : α) (idx : List Nat) : List α :=
  idx.map fun i => arr.getD i d

/-- The `'id'` component of the returned dict: the raw `(url, path)` pairs,
or the sorted integer category codes when `categorize_id` is set. -/
inductive IdArr : Type
  | raw (pairs : List (ℚ × ℚ))
  | categ (codes : List Nat)
deriving DecidableEq

/-- The `'X'` component: a dense ndarray or a CSR matrix. -/
inductive XArr : Type
  | dense (rows : List (List ℚ))
  | sparse (m : COO)
deriving DecidableEq

/-- The dict returned by `get_numpy_dataset`. -/
structure NpDataset : Type where
  id : IdArr
  X : XArr
  y : List ℚ
deriving DecidableEq

/-- CSR fancy row indexing `X_arr[sorted_categ]`: output row `i` holds the
entries of input row `idx[i]`. -/
def cooRowPermute (m : COO) (idx : List Nat) : COO where
  nrows := idx.length
  ncols := m.ncols
  entries :=
    (idx.enum.map fun ii =>
      (m.entries.filter fun e => decide (e.1 = ii.2)).map
        fun e => (ii.1, e.2.1, e.2.2)).join

/-- Row permutation of either representation of `X`. -/
def xPermute (x : XArr) (idx : List Nat) : XArr :=
  match x with
  | .dense rows => .dense (npIndex rows [] idx)
  | .sparse m => .sparse (cooRowPermute m idx)

/-- `np.unique(id_arr, return_inverse=True)`'s inverse component: each
value replaced by its index in the sorted unique values. -/
def npUniqueInverse (vals : List ℚ) : List Nat :=
  vals.map fun v => idxOf v (npUnique vals)

/-- `tf_utils.numpy_input.get_numpy_dataset(csv_pattern, data_cols,
categorize_id, sparse_matrix)`.  The frame stands for the loaded CSV data;
`srt` is the result of `np.argsort(categ_id_arr)` (see the section
comment). -/
def get_numpy_dataset (ddf : Frame) (data_cols : Option (List Col))
    (categorize_id : Bool) (sparse_matrix : Bool) (srt : List Nat) : NpDataset :=
  let id_arr : List (ℚ × ℚ) := ddf.rows.map fun r =>
    (r.getD (idxOf Col.url ddf.cols) 0, r.getD (idxOf Col.path ddf.cols) 0)
  let X_ddf := featFrame ddf data_cols
  let y_arr := colVals ddf Col.content_label
  let X_arr : XArr :=
    if sparse_matrix then .sparse (cooCast32 (toCOO X_ddf.rows))
    else .dense X_ddf.rows
  if categorize_id = false then ⟨.raw id_arr, X_arr, y_arr⟩
  else
    let categ_id_arr := npUniqueInverse (id_arr.map Prod.fst)
    ⟨.categ (npIndex categ_id_arr 0 srt), xPermute X_arr srt, npIndex y_arr 0 srt⟩

/-- The `url` column (the first component of the id pairs,
`id_arr[:, 0]`). -/
def urlVals (ddf : Frame) : List ℚ :=
  ddf.rows.map fun r => r.getD (idxOf Col.url ddf.cols) 0

/-- A three-row frame whose first two urls coincide after sorting ties —
used to exercise the categorized sort. -/
def exFrame : Frame where
  cols := [Col.url, Col.path, Col.content_label, Col.feat 0]
  rows := [[1, 0, 5, 10], [0, 0, 6, 20], [0, 0, 7, 30]]

/-- A one-row frame whose single feature value `0.1` is not representable
in binary32. -/
def tenthFrame : Frame where
  cols := [Col.url, Col.path, Col.content_label, Col.feat 0]
  rows := [[0, 0, 0, 1/10]]

/-- A one-row frame with the binary32-representable feature value `1`. -/
def oneFrame : Frame where
  cols := [Col.url, Col.path, Col.content_label, Col.feat 0]
  rows := [[0, 0, 0, 1]]

/-- Executable permutation check: remove the first occurrence, if any. -/
def removeFirst (x : Nat) : List Nat → Option (List Nat)
  | [] => none
  | y :: t => if x = y then some t else (removeFirst x t).map (y :: ·)

/-- Executable permutation check. -/
def permCheck : List Nat → List Nat → Bool
  | [], [] => true
  | [], _ :: _ => false
  | x :: t, q =>
    match removeFirst x q with
    | some q2 => permCheck t q2
    | none => false

/-- Executable nondecreasing check. -/
def sortedLe : List Nat → Bool
  | [] => true
  | [_] => true
  | a :: b :: t => decide (a ≤ b) && sortedLe (b :: t)

/-- Executable strict lexicographic chain check on (value, index) pairs. -/
def stableLex : List (Nat × Nat) → Bool
  | [] => true
  | [_] => true
  | a :: b :: t =>
    (decide (a.1 < b.1) || (decide (a.1 = b.1) && decide (a.2 < b.2))) && stableLex (b :: t)

/-- A valid result of `np.argsort(vals)` (default `kind='quicksort'`): a
permutation of the positions along which the values are nondecreasing.
Which of several valid permutations NumPy returns on ties is not part of
its contract. -/
def isSortPerm (vals : List Nat) (p : List Nat) : Prop :=
  permCheck p (List.range vals.length) = true ∧ sortedLe (npIndex vals 0 p) = true

instance instDecidIsSortPerm (vals p : List Nat) : Decidable (isSortPerm vals p) :=
  inferInstanceAs (Decidable (permCheck p (List.range vals.length) = true
    ∧ sortedLe (npIndex vals 0 p) = true))

/-- The stable argsort result: among rows of equal value, original order is
kept (`np.argsort(..., kind='stable')`). -/
def isStableSortPerm (vals : List Nat) (p : List Nat) : Prop :=
  permCheck p (List.range vals.length) = true
    ∧ stableLex (p.map fun i => (vals.getD i 0, i)) = true

instance instDecidIsStableSortPerm (vals p : List Nat) :
    Decidable (isStableSortPerm vals p) :=
  inferInstanceAs (Decidable (permCheck p (List.range vals.length) = true
    ∧ stableLex (p.map fun i => (vals.getD i 0, i)) = true))

/-! ## Embedding of `src/utils.py`: `MyKerasClassifier.fit`

`val_point = int(X.shape[0] * .8)`: for every array length below `2^49`
the binary64 product `n * 0.8` truncates to exactly `⌊4n/5⌋` (the rounding
error of the product is far below the distance to the next integer), so
the cut point is modelled as `n * 4 / 5` in exact arithmetic.  The model
records which rows are passed to the underlying `super().fit` and which
rows form the validation set given to the `Metrics` callback driving early
stopping (`X[:val_point]` / `X[val_point:]`). -/

/-- The row split performed by `MyKerasClassifier.fit`. -/
structure FitPlan : Type where
  fitX : List (List ℚ)
  fitY : List ℚ
  valX : List (List ℚ)
  valY : List ℚ
deriving DecidableEq

/-- `MyKerasClassifier.fit(X, y)`: rows before `val_point` are fitted,
rows from `val_point` on are the validation data. -/
def myKerasClassifierFit (X : List (List ℚ)) (y : List ℚ) : FitPlan :=
  let val_point := X.length * 4 / 5
  ⟨X.take val_point, y.take val_point, X.drop val_point, y.drop val_point⟩

/-- Unfolding of `decodeOne` on a non-empty byte sequence. -/
theorem decodeOne_cons (b1 : Nat) (t : List Nat) :
    decodeOne (b1 :: t) =
      (if b1 < 0x80 then some (b1, t)
      else if b1 < 0xC2 then none
      else if b1 < 0xE0 then
        match t with
        | b2 :: t2 =>
          if contB b2 then some ((b1 - 0xC0) * 0x40 + (b2 - 0x80), t2) else none
        | [] => none
      else if b1 < 0xF0 then
        match t with
        | b2 :: b3 :: t3 =>
          if contB b2 && contB b3 then
            if 0x800 ≤ (b1 - 0xE0) * 0x1000 + (b2 - 0x80) * 0x40 + (b3 - 0x80) ∧
                ¬(0xD800 ≤ (b1 - 0xE0) * 0x1000 + (b2 - 0x80) * 0x40 + (b3 - 0x80) ∧
                  (b1 - 0xE0) * 0x1000 + (b2 - 0x80) * 0x40 + (b3 - 0x80) < 0xE000) then
              some ((b1 - 0xE0) * 0x1000 + (b2 - 0x80) * 0x40 + (b3 - 0x80), t3)
            else none
          else none
        | _ => none
      else if b1 < 0xF5 then
        match t with
        | b2 :: b3 :: b4 :: t4 =>
          if contB b2 && contB b3 && contB b4 then
            if 0x10000 ≤ (b1 - 0xF0) * 0x40000 + (b2 - 0x80) * 0x1000 +
                  (b3 - 0x80) * 0x40 + (b4 - 0x80) ∧
                (b1 - 0xF0) * 0x40000 + (b2 - 0x80) * 0x1000 +
                  (b3 - 0x80) * 0x40 + (b4 - 0x80) < 0x110000 then
              some ((b1 - 0xF0) * 0x40000 + (b2 - 0x80) * 0x1000 +
                (b3 - 0x80) * 0x40 + (b4 - 0x80), t4)
            else none
          else none
        | _ => none
      else none) := rfl

/-- Every successfully decoded character re-encodes to exactly the bytes it
consumed, and it consumed at least one byte. -/
theorem decodeOne_spec (l : List Nat) (c : Nat) (rest : List Nat)
    (h : decodeOne l = some (c, rest)) :
    ∃ bs, bs ≠ [] ∧ utf8EncodeChar c = some bs ∧ l = bs ++ rest := by
  match l with
  | [] => simp [decodeOne] at h
  | b1 :: t =>
    rw [decodeOne_cons] at h
    by_cases h1 : b1 < 0x80
    · rw [if_pos h1] at h
      obtain ⟨rfl, rfl⟩ : b1 = c ∧ t = rest := by
        simpa using h
      exact ⟨[b1], by simp, by simp [utf8EncodeChar, if_pos h1], rfl⟩
    · rw [if_neg h1] at h
      by_cases h2 : b1 < 0xC2
      · rw [if_pos h2] at h
        simp at h
      · rw [if_neg h2] at h
        by_cases h3 : b1 < 0xE0
        · rw [if_pos h3] at h
          match t with
          | [] => simp at h
          | b2 :: t2 =>
            replace h :
                (if contB b2 then some ((b1 - 0xC0) * 0x40 + (b2 - 0x80), t2)
                 else none) = some (c, rest) := h
            by_cases hc : contB b2
            · rw [if_pos hc] at h
              obtain ⟨rfl, rfl⟩ : (b1 - 0xC0) * 0x40 + (b2 - 0x80) = c ∧ t2 = rest := by
                simpa using h
              simp only [contB, Bool.and_eq_true, decide_eq_true_eq] at hc
              refine ⟨[b1, b2], by simp, ?_, rfl⟩
              have e1 : 0xC0 + ((b1 - 0xC0) * 0x40 + (b2 - 0x80)) / 0x40 = b1 := by omega
              have e2 : 0x80 + ((b1 - 0xC0) * 0x40 + (b2 - 0x80)) % 0x40 = b2 := by omega
              rw [utf8EncodeChar, if_neg (by omega), if_pos (by omega), e1, e2]
            · rw [if_neg hc] at h
              simp at h
        · rw [if_neg h3] at h
          by_cases h4 : b1 < 0xF0
          · rw [if_pos h4] at h
            match t with
            | [] => simp at h
            | [b2] => simp at h
            | b2 :: b3 :: t3 =>
              replace h :
                  (if contB b2 && contB b3 then
                    if 0x800 ≤ (b1 - 0xE0) * 0x1000 + (b2 - 0x80) * 0x40 + (b3 - 0x80) ∧
                        ¬(0xD800 ≤ (b1 - 0xE0) * 0x1000 + (b2 - 0x80) * 0x40 + (b3 - 0x80) ∧
                          (b1 - 0xE0) * 0x1000 + (b2 - 0x80) * 0x40 + (b3 - 0x80) < 0xE000) then
                      some ((b1 - 0xE0) * 0x1000 + (b2 - 0x80) * 0x40 + (b3 - 0x80), t3)
                    else none
                  else none) = some (c, rest) := h
              by_cases hc : contB b2 && contB b3
              · rw [if_pos hc] at h
                by_cases hr : 0x800 ≤ (b1 - 0xE0) * 0x1000 + (b2 - 0x80) * 0x40 + (b3 - 0x80) ∧
                    ¬(0xD800 ≤ (b1 - 0xE0) * 0x1000 + (b2 - 0x80) * 0x40 + (b3 - 0x80) ∧
                      (b1 - 0xE0) * 0x1000 + (b2 - 0x80) * 0x40 + (b3 - 0x80) < 0xE000)
                · rw [if_pos hr] at h
                  obtain ⟨rfl, rfl⟩ :
                      (b1 - 0xE0) * 0x1000 + (b2 - 0x80) * 0x40 + (b3 - 0x80) = c ∧
                        t3 = rest := by
                    simpa using h
                  simp only [contB, Bool.and_eq_true, decide_eq_true_eq] at hc
                  obtain ⟨⟨hc2a, hc2b⟩, hc3a, hc3b⟩ := hc
                  obtain ⟨hr1, hr2⟩ := hr
                  refine ⟨[b1, b2, b3], by simp, ?_, rfl⟩
                  have e1 : 0xE0 + ((b1 - 0xE0) * 0x1000 + (b2 - 0x80) * 0x40 + (b3 - 0x80)) /
                      0x1000 = b1 := by omega
                  have e2 : 0x80 + ((b1 - 0xE0) * 0x1000 + (b2 - 0x80) * 0x40 + (b3 - 0x80)) /
                      0x40 % 0x40 = b2 := by omega
                  have e3 : 0x80 + ((b1 - 0xE0) * 0x1000 + (b2 - 0x80) * 0x40 + (b3 - 0x80)) %
                      0x40 = b3 := by omega
                  by_cases hlow : (b1 - 0xE0) * 0x1000 + (b2 - 0x80) * 0x40 + (b3 - 0x80) < 0xD800
                  · rw [utf8EncodeChar, if_neg (by omega), if_neg (by omega), if_pos hlow,
                      e1, e2, e3]
                  · rw [utf8EncodeChar, if_neg (by omega), if_neg (by omega), if_neg hlow,
                      if_neg (by omega), if_pos (by omega), e1, e2, e3]
                · rw [if_neg hr] at h
                  simp at h
              · rw [if_neg hc] at h
                simp at h
          · rw [if_neg h4] at h
            by_cases h5 : b1 < 0xF5
            · rw [if_pos h5] at h
              match t with
              | [] => simp at h
              | [b2] => simp at h
              | [b2, b3] => simp at h
              | b2 :: b3 :: b4 :: t4 =>
                replace h :
                    (if contB b2 && contB b3 && contB b4 then
                      if 0x10000 ≤ (b1 - 0xF0) * 0x40000 + (b2 - 0x80) * 0x1000 +
                            (b3 - 0x80) * 0x40 + (b4 - 0x80) ∧
                          (b1 - 0xF0) * 0x40000 + (b2 - 0x80) * 0x1000 +
                            (b3 - 0x80) * 0x40 + (b4 - 0x80) < 0x110000 then
                        some ((b1 - 0xF0) * 0x40000 + (b2 - 0x80) * 0x1000 +
                          (b3 - 0x80) * 0x40 + (b4 - 0x80), t4)
                      else none
                    else none) = some (c, rest) := h
                by_cases hc : contB b2 && contB b3 && contB b4
                · rw [if_pos hc] at h
                  by_cases hr : 0x10000 ≤ (b1 - 0xF0) * 0x40000 + (b2 - 0x80) * 0x1000 +
                        (b3 - 0x80) * 0x40 + (b4 - 0x80) ∧
                      (b1 - 0xF0) * 0x40000 + (b2 - 0x80) * 0x1000 +
                        (b3 - 0x80) * 0x40 + (b4 - 0x80) < 0x110000
                  · rw [if_pos hr] at h
                    obtain ⟨rfl, rfl⟩ :
                        (b1 - 0xF0) * 0x40000 + (b2 - 0x80) * 0x1000 +
                          (b3 - 0x80) * 0x40 + (b4 - 0x80) = c ∧ t4 = rest := by
                      simpa using h
                    simp only [contB, Bool.and_eq_true, decide_eq_true_eq] at hc
                    obtain ⟨⟨⟨hc2a, hc2b⟩, hc3a, hc3b⟩, hc4a, hc4b⟩ := hc
                    obtain ⟨hr1, hr2⟩ := hr
                    refine ⟨[b1, b2, b3, b4], by simp, ?_, rfl⟩
                    have e1 : 0xF0 + ((b1 - 0xF0) * 0x40000 + (b2 - 0x80) * 0x1000 +
                        (b3 - 0x80) * 0x40 + (b4 - 0x80)) / 0x40000 = b1 := by omega
                    have e2 : 0x80 + ((b1 - 0xF0) * 0x40000 + (b2 - 0x80) * 0x1000 +
                        (b3 - 0x80) * 0x40 + (b4 - 0x80)) / 0x1000 % 0x40 = b2 := by omega
                    have e3 : 0x80 + ((b1 - 0xF0) * 0x40000 + (b2 - 0x80) * 0x1000 +
                        (b3 - 0x80) * 0x40 + (b4 - 0x80)) / 0x40 % 0x40 = b3 := by omega
                    have e4 : 0x80 + ((b1 - 0xF0) * 0x40000 + (b2 - 0x80) * 0x1000 +
                        (b3 - 0x80) * 0x40 + (b4 - 0x80)) % 0x40 = b4 := by omega
                    rw [utf8EncodeChar, if_neg (by omega), if_neg (by omega),
                      if_neg (by omega), if_neg (by omega), if_neg (by omega),
                      if_pos (by omega), e1, e2, e3, e4]
                  · rw [if_neg hr] at h
                    simp at h
                · rw [if_neg hc] at h
                  simp at h
            · rw [if_neg h5] at h
              simp at h

/-- With at least `l.length` units of fuel, a decoded sequence re-encodes
to the original bytes. -/
theorem utf8DecodeGo_encode (fuel : Nat) :
    ∀ l s, l.length ≤ fuel → utf8DecodeGo fuel l = some s → utf8Encode s = some l := by
  induction fuel with
  | zero =>
    intro l s hlen h
    match l with
    | [] =>
      simp only [utf8DecodeGo, Option.some.injEq] at h
      simp [← h, utf8Encode]
    | b :: t => simp at hlen
  | succ fuel ih =>
    intro l s hlen h
    match l with
    | [] =>
      simp only [utf8DecodeGo, Option.some.injEq] at h
      simp [← h, utf8Encode]
    | b1 :: t =>
      rw [utf8DecodeGo] at h
      match hd : decodeOne (b1 :: t) with
      | none => rw [hd] at h; simp at h
      | some (c, rest) =>
        rw [hd] at h
        simp only [Option.map_eq_some'] at h
        obtain ⟨s', hs', rfl⟩ := h
        obtain ⟨bs, hne, henc, heq⟩ := decodeOne_spec _ _ _ hd
        have hrest : rest.length ≤ fuel := by
          have := congrArg List.length heq
          simp only [List.length_cons, List.length_append] at this hlen
          have hb : 1 ≤ bs.length := by
            cases bs with
            | nil => exact absurd rfl hne
            | cons x xs => simp
          omega
        have hrec := ih rest s' hrest hs'
        rw [utf8Encode]
        rw [henc, hrec, heq]

/-- Encoding inverts strict decoding: any byte string accepted by the
strict UTF-8 decoder re-encodes to itself. -/
theorem utf8Encode_utf8Decode (b s : List Nat) (h : utf8Decode b = some s) :
    utf8Encode s = some b :=
  utf8DecodeGo_encode b.length b s le_rfl h

/-- C10 (round trip): converting valid UTF-8 `bytes` to `str` and back is
the identity. -/
theorem bytes_cast_str_cast (b : List Nat) (h : (utf8Decode b).isSome) :
    (str_cast (.pbytes b)).bind bytes_cast = some (.pbytes b) := by
  obtain ⟨s, hs⟩ := Option.isSome_iff_exists.mp h
  simp [str_cast, bytes_cast, hs, utf8Encode_utf8Decode b s hs]

/-- C10 (idempotence of `str_cast`). -/
theorem str_cast_idem (x : PyVal) : (str_cast x).bind str_cast = str_cast x := by
  match x with
  | .pstr s => rfl
  | .pother o => rfl
  | .pbytes b =>
    match hd : utf8Decode b with
    | none => simp [str_cast, hd]
    | some s => simp [str_cast, hd]

/-- C10 (idempotence of `bytes_cast`). -/
theorem bytes_cast_idem (x : PyVal) : (bytes_cast x).bind bytes_cast = bytes_cast x := by
  match x with
  | .pbytes b => rfl
  | .pother o => rfl
  | .pstr s =>
    match hd : utf8Encode s with
    | none => simp [bytes_cast, hd]
    | some bs => simp [bytes_cast, hd]

/-- C10: for every valid UTF-8 byte string `b`, `bytes_cast (str_cast b) = b`,
and both casts are idempotent on every input. -/
theorem casts_roundtrip_and_idem (b : List Nat) (h : (utf8Decode b).isSome) :
    (str_cast (.pbytes b)).bind bytes_cast = some (.pbytes b)
    ∧ (∀ x : PyVal, (str_cast x).bind str_cast = str_cast x)
    ∧ (∀ x : PyVal, (bytes_cast x).bind bytes_cast = bytes_cast x) :=
  ⟨bytes_cast_str_cast b h, str_cast_idem, bytes_cast_idem⟩

/-- Witness for C10 at the byte string `[0x48, 0xC3, 0xA9]` (UTF-8 for
`"Hé"`). -/
theorem casts_roundtrip_and_idem_witness :
    (utf8Decode [0x48, 0xC3, 0xA9]).isSome
    ∧ ((str_cast (.pbytes [0x48, 0xC3, 0xA9])).bind bytes_cast
        = some (.pbytes [0x48, 0xC3, 0xA9])) :=
  ⟨by decide, (casts_roundtrip_and_idem [0x48, 0xC3, 0xA9] (by decide)).1⟩


/-- `getD` through `map` at an in-range index. -/
theorem getD_map {α β : Type} (f : α → β) (l : List α) (i : Nat) (h : i < l.length)
    (d : β) (d' : α) : (l.map f).getD i d = f (l.getD i d') := by
  induction l generalizing i with
  | nil => simp at h
  | cons x t ih =>
    cases i with
    | zero => simp
    | succ i =>
      have h' : i < t.length := by
        simp only [List.length_cons] at h
        omega
      simpa using ih i h'

/-- `getD` on the zip of a list with its own tail gives consecutive pairs. -/
theorem getD_zip_tail (l : List ℤ) (i : Nat) (h : i + 1 < l.length) :
    (l.zip l.tail).getD i (0, 0) = (l.getD i 0, l.getD (i + 1) 0) := by
  induction l generalizing i with
  | nil => simp at h
  | cons x t ih =>
    cases t with
    | nil => simp at h
    | cons y t' =>
      cases i with
      | zero => simp
      | succ i =>
        have h' : i + 1 < (y :: t').length := by
          simp only [List.length_cons] at h ⊢
          omega
        simpa using ih i h'

/-- Running sums of `scanl (+)` are the sums of the prefixes. -/
theorem scanl_add_getD (l : List ℚ) (a : ℚ) (i : Nat) (h : i ≤ l.length) :
    (List.scanl (· + ·) a l).getD i 0 = a + (l.take i).sum := by
  induction l generalizing a i with
  | nil =>
    have hi : i = 0 := by simpa using h
    subst hi
    simp [List.scanl]
  | cons x t ih =>
    cases i with
    | zero => simp [List.scanl]
    | succ i =>
      have h' : i ≤ t.length := by
        simp only [List.length_cons] at h
        omega
      rw [List.scanl, List.getD_cons_succ, ih (a + x) i h', List.take_succ_cons,
        List.sum_cons]
      ring

/-- The number of split points is one more than the number of proportions. -/
theorem splitPoints_length (proportions : List ℚ) (n : Nat) :
    (splitPoints proportions n).length = proportions.length + 1 := by
  simp [splitPoints, cumsum0, List.length_scanl]

/-- The `i`-th split point is the floor of the `i`-th cumulative proportion
times `n`: the spec's boundary. -/
theorem splitPoints_getD (proportions : List ℚ) (n : Nat) (i : Nat)
    (h : i ≤ proportions.length) :
    (splitPoints proportions n).getD i 0 = specSplitBound proportions n i := by
  have hl : i < (cumsum0 proportions).length := by
    simp [cumsum0, List.length_scanl]
    omega
  rw [splitPoints, getD_map _ _ i hl 0 0, specSplitBound]
  rw [cumsum0, scanl_add_getD _ _ i h, zero_add]

/-- Shared helper: the masks of `get_random_split` are exactly the
spec-described masks, one per proportion. -/
theorem split_masks_eq (key : List K) (proportions : List ℚ)
    (rng : List K → List K) (hperm : (rng (npUnique key)).Perm (npUnique key)) :
    (get_random_split key proportions rng).length = proportions.length
    ∧ ∀ i, i < proportions.length →
        (get_random_split key proportions rng).getD i []
          = specSplitMask key proportions (rng (npUnique key)) i := by
  have hn : (rng (npUnique key)).length = (npUnique key).length := hperm.length_eq
  constructor
  · simp [get_random_split, splitPoints_length, List.length_zip]
  · intro i hi
    have hzlen : ((splitPoints proportions (rng (npUnique key)).length).zip
        (splitPoints proportions (rng (npUnique key)).length).tail).length
        = proportions.length := by
      simp [List.length_zip, splitPoints_length, List.length_tail]
    rw [get_random_split]
    rw [getD_map _ _ i (by rw [hzlen]; exact hi) [] (0, 0)]
    rw [getD_zip_tail _ i (by rw [splitPoints_length]; omega)]
    rw [splitPoints_getD _ _ i (by omega), splitPoints_getD _ _ (i + 1) (by omega)]
    rw [hn]
    rfl

/-- C1: `get_random_split` returns one mask per proportion, and mask `i`
marks row `r` iff `r`'s key lies in the contiguous slice of the shuffled
unique keys delimited by the floors of the cumulative proportions times the
number of unique keys — the spec's four-step algorithm.  The uniformly
random shuffle is modelled by the arbitrary permutation `rng` of the
unique-key list. -/
theorem get_random_split_follows_spec (key : List K) (proportions : List ℚ)
    (rng : List K → List K) (hperm : (rng (npUnique key)).Perm (npUnique key)) :
    (get_random_split key proportions rng).length = proportions.length
    ∧ ∀ i, i < proportions.length →
        (get_random_split key proportions rng).getD i []
          = specSplitMask key proportions (rng (npUnique key)) i :=
  split_masks_eq key proportions rng hperm

/-- Witness for C1: two rows, two groups, fifty-fifty proportions, identity
shuffle. -/
theorem get_random_split_follows_spec_witness :
    ((List.Perm (id (npUnique ([0, 1] : List ℤ))) (npUnique ([0, 1] : List ℤ)))
    ∧ (get_random_split ([0, 1] : List ℤ) [1/2, 1/2] id).getD 0 []
        = specSplitMask ([0, 1] : List ℤ) [1/2, 1/2] (id (npUnique ([0, 1] : List ℤ))) 0) :=
  ⟨List.Perm.refl _,
    (get_random_split_follows_spec ([0, 1] : List ℤ) [1/2, 1/2] id
      (List.Perm.refl _)).2 0 (by decide)⟩

/-- Membership in `insertLe`. -/
theorem mem_insertLe (a x : K) (l : List K) : a ∈ insertLe x l ↔ a = x ∨ a ∈ l := by
  induction l with
  | nil => simp [insertLe]
  | cons y t ih =>
    rw [insertLe]
    by_cases h : x ≤ y
    · simp [if_pos h]
    · rw [if_neg h]
      simp only [List.mem_cons, ih]
      tauto

/-- `insertLe` preserves distinctness. -/
theorem nodup_insertLe (x : K) (l : List K) (hnd : l.Nodup) (hx : x ∉ l) :
    (insertLe x l).Nodup := by
  induction l with
  | nil => simp [insertLe]
  | cons y t ih =>
    rw [insertLe]
    rw [List.nodup_cons] at hnd
    simp only [List.mem_cons, not_or] at hx
    by_cases h : x ≤ y
    · rw [if_pos h, List.nodup_cons, List.nodup_cons]
      refine ⟨?_, hnd⟩
      simp only [List.mem_cons, not_or]
      exact ⟨hx.1, hx.2⟩
    · rw [if_neg h, List.nodup_cons]
      constructor
      · rw [mem_insertLe]
        rintro (rfl | hmem)
        · exact hx.1 rfl
        · exact hnd.1 hmem
      · exact ih hnd.2 hx.2

/-- Membership in the insertion sort. -/
theorem mem_isort (a : K) (l : List K) : a ∈ isort l ↔ a ∈ l := by
  induction l with
  | nil => simp [isort]
  | cons x t ih => rw [isort, mem_insertLe, ih]; simp

/-- Insertion sort preserves distinctness. -/
theorem nodup_isort (l : List K) (hnd : l.Nodup) : (isort l).Nodup := by
  induction l with
  | nil => simp [isort]
  | cons x t ih =>
    rw [List.nodup_cons] at hnd
    rw [isort]
    refine nodup_insertLe x (isort t) (ih hnd.2) ?_
    rw [mem_isort]
    exact hnd.1

/-- The unique-key list has no duplicates. -/
theorem npUnique_nodup (l : List K) : (npUnique l).Nodup :=
  nodup_isort _ l.nodup_dedup

/-- The unique-key list has exactly the values of the input. -/
theorem mem_npUnique (a : K) (l : List K) : a ∈ npUnique l ↔ a ∈ l := by
  rw [npUnique, mem_isort, List.mem_dedup]


/-- The index of a present value is in range. -/
theorem idxOf_lt_length (k : K) (l : List K) (h : k ∈ l) : idxOf k l < l.length := by
  induction l with
  | nil => simp at h
  | cons x t ih =>
    rw [idxOf]
    by_cases he : k = x
    · simp [if_pos he]
    · rw [if_neg he]
      have : k ∈ t := by
        rcases List.mem_cons.mp h with h' | h'
        · exact absurd h' he
        · exact h'
      simpa using ih this

/-- For a duplicate-free list containing `k`, membership of `k` in
`(l.take b).drop a` is exactly the window condition on its index. -/
theorem mem_take_drop_iff (k : K) (l : List K) (hnd : l.Nodup) (hk : k ∈ l)
    (a b : Nat) : k ∈ (l.take b).drop a ↔ a ≤ idxOf k l ∧ idxOf k l < b := by
  induction l generalizing a b with
  | nil => simp at hk
  | cons x t ih =>
    rw [List.nodup_cons] at hnd
    rw [idxOf]
    by_cases he : k = x
    · subst he
      rw [if_pos rfl]
      cases b with
      | zero => simp
      | succ b =>
        rw [List.take_succ_cons]
        cases a with
        | zero => simp
        | succ a =>
          rw [List.drop_succ_cons]
          simp only [Nat.succ_le_iff]
          constructor
          · intro hmem
            exact absurd (List.take_subset b t (List.mem_of_mem_drop hmem)) hnd.1
          · intro h
            omega
    · rw [if_neg he]
      have hkt : k ∈ t := by
        rcases List.mem_cons.mp hk with h' | h'
        · exact absurd h' he
        · exact h'
      cases b with
      | zero => simp
      | succ b =>
        rw [List.take_succ_cons]
        cases a with
        | zero =>
          rw [List.drop_zero, List.mem_cons]
          have := ih hnd.2 hkt 0 b
          rw [List.drop_zero] at this
          rw [this]
          constructor
          · rintro (h' | h')
            · exact absurd h' he
            · omega
          · intro h
            right
            omega
        | succ a =>
          rw [List.drop_succ_cons, ih hnd.2 hkt a b]
          omega

/-- For a duplicate-free list containing `k`, membership in a Python slice
is the window condition on the index of `k`. -/
theorem mem_npSlice_iff (k : K) (l : List K) (hnd : l.Nodup) (hk : k ∈ l) (a b : ℤ) :
    k ∈ npSlice l a b ↔
      npSliceIdx l.length a ≤ idxOf k l ∧ idxOf k l < npSliceIdx l.length b := by
  rw [npSlice]
  exact mem_take_drop_iff k l hnd hk _ _

/-- A nonnegative slice bound at most the length resolves to its `toNat`. -/
theorem npSliceIdx_of_bounds (n : Nat) (p : ℤ) (h0 : 0 ≤ p) (hn : p ≤ n) :
    npSliceIdx n p = p.toNat := by
  rw [npSliceIdx, if_neg (by omega)]
  omega

/-- Chained monotonicity from adjacent monotonicity below a cutoff. -/
theorem chain_mono {α : Type} [Preorder α] (c : Nat → α) (m : Nat)
    (h : ∀ i, i < m → c i ≤ c (i + 1)) :
    ∀ i j, i ≤ j → j ≤ m → c i ≤ c j := by
  intro i j
  induction j with
  | zero =>
    intro hij _
    have : i = 0 := by omega
    subst this
    exact le_refl _
  | succ j ihj =>
    intro hij hjm
    by_cases he : i = j + 1
    · subst he
      exact le_refl _
    · exact le_trans (ihj (by omega) (by omega)) (h j (by omega))

/-- A point below the last of a monotone family of cut points and at least
the first lies in exactly one of the bands. -/
theorem existsUnique_band (c : Nat → Nat) (m : Nat)
    (hmono : ∀ i, i < m → c i ≤ c (i + 1)) (x : Nat) (h0 : c 0 ≤ x) (hm : x < c m) :
    ∃! i, i < m ∧ c i ≤ x ∧ x < c (i + 1) := by
  induction m with
  | zero => omega
  | succ m ih =>
    by_cases hx : x < c m
    · obtain ⟨i, ⟨hi, hci, hci1⟩, huniq⟩ := ih (fun i hi => hmono i (by omega)) hx
      refine ⟨i, ⟨by omega, hci, hci1⟩, ?_⟩
      rintro j ⟨hj, hcj, hcj1⟩
      by_cases hjm : j = m
      · subst hjm
        omega
      · exact huniq j ⟨by omega, hcj, hcj1⟩
    · refine ⟨m, ⟨by omega, by omega, hm⟩, ?_⟩
      rintro j ⟨hj, hcj, hcj1⟩
      by_cases hjm : j = m
      · exact hjm
      · have : c (j + 1) ≤ c m :=
          chain_mono c (m + 1) hmono (j + 1) m (by omega) (by omega)
        omega

/-- `getD` at an in-range index is `get`. -/
theorem getD_eq_get {α : Type} (l : List α) (i : Nat) (h : i < l.length) (d : α) :
    l.getD i d = l.get ⟨i, h⟩ := by
  induction l generalizing i with
  | nil => simp at h
  | cons x t ih =>
    cases i with
    | zero => simp
    | succ i =>
      have h' : i < t.length := by
        simp only [List.length_cons] at h
        omega
      simpa using ih i h'

/-- `getD` past the end is the default. -/
theorem getD_of_length_le {α : Type} (l : List α) (i : Nat) (h : l.length ≤ i) (d : α) :
    l.getD i d = d := by
  induction l generalizing i with
  | nil => simp
  | cons x t ih =>
    cases i with
    | zero => simp at h
    | succ i =>
      have h' : t.length ≤ i := by
        simp only [List.length_cons] at h
        omega
      simpa using ih i h'

/-- Prefix sums of a nonnegative list are nonnegative. -/
theorem take_sum_nonneg (props : List ℚ) (hnn : ∀ p ∈ props, 0 ≤ p) (i : Nat) :
    0 ≤ (props.take i).sum :=
  List.sum_nonneg fun p hp => hnn p (List.take_subset i props hp)

/-- Prefix sums are bounded by the total sum for nonnegative lists. -/
theorem take_sum_le_sum (props : List ℚ) (hnn : ∀ p ∈ props, 0 ≤ p) (i : Nat) :
    (props.take i).sum ≤ props.sum := by
  conv_rhs => rw [← List.take_append_drop i props]
  rw [List.sum_append]
  have h : 0 ≤ (props.drop i).sum :=
    List.sum_nonneg fun p hp => hnn p (List.drop_subset i props hp)
  linarith

/-- Adjacent monotonicity of the prefix sums of a nonnegative list. -/
theorem take_sum_mono_succ (props : List ℚ) (hnn : ∀ p ∈ props, 0 ≤ p) (i : Nat) :
    (props.take i).sum ≤ (props.take (i + 1)).sum := by
  by_cases h : i < props.length
  · rw [List.sum_take_succ _ i h]
    have h0 : 0 ≤ props[i] := hnn _ (List.getElem_mem h)
    linarith
  · rw [List.take_of_length_le (by omega), List.take_of_length_le (by omega)]

/-- The split boundaries are nonnegative for nonnegative proportions. -/
theorem specSplitBound_nonneg (props : List ℚ) (n : Nat)
    (hnn : ∀ p ∈ props, 0 ≤ p) (i : Nat) : 0 ≤ specSplitBound props n i := by
  rw [specSplitBound]
  have h0 : (0 : ℚ) ≤ (props.take i).sum * (n : ℚ) :=
    mul_nonneg (take_sum_nonneg props hnn i) (by positivity)
  exact Int.le_floor.mpr (by exact_mod_cast h0)

/-- The split boundaries are at most `n` when the proportions are
nonnegative and sum to 1. -/
theorem specSplitBound_le (props : List ℚ) (n : Nat)
    (hnn : ∀ p ∈ props, 0 ≤ p) (hsum : props.sum = 1) (i : Nat) :
    specSplitBound props n i ≤ n := by
  rw [specSplitBound]
  have h1 : (props.take i).sum ≤ 1 := by
    rw [← hsum]
    exact take_sum_le_sum props hnn i
  have h2 : (props.take i).sum * (n : ℚ) ≤ (n : ℚ) := by
    have hn : (0 : ℚ) ≤ (n : ℚ) := by positivity
    nlinarith
  calc ⌊(props.take i).sum * (n : ℚ)⌋ ≤ ⌊(n : ℚ)⌋ := Int.floor_le_floor h2
    _ = n := Int.floor_natCast n

/-- Adjacent monotonicity of the split boundaries. -/
theorem specSplitBound_mono (props : List ℚ) (n : Nat)
    (hnn : ∀ p ∈ props, 0 ≤ p) (i : Nat) :
    specSplitBound props n i ≤ specSplitBound props n (i + 1) :=
  Int.floor_le_floor
    (mul_le_mul_of_nonneg_right (take_sum_mono_succ props hnn i) (by positivity))

/-- The first split boundary is 0. -/
theorem specSplitBound_zero (props : List ℚ) (n : Nat) :
    specSplitBound props n 0 = 0 := by
  simp [specSplitBound]

/-- The last split boundary is `n` when the proportions sum to 1. -/
theorem specSplitBound_last (props : List ℚ) (n : Nat) (hsum : props.sum = 1) :
    specSplitBound props n props.length = n := by
  rw [specSplitBound, List.take_length, hsum, one_mul, Int.floor_natCast]

/-- Shared helper: mask `i` is true at row `r` exactly when the index of
`r`'s key in the shuffled unique keys lies in window `i`. -/
theorem mask_true_iff (key : List K) (props : List ℚ) (rng : List K → List K)
    (hperm : (rng (npUnique key)).Perm (npUnique key))
    (i r : Nat) (hi : i < props.length) (hr : r < key.length) :
    ((get_random_split key props rng).getD i []).getD r false = true ↔
      npSliceIdx (rng (npUnique key)).length
          (specSplitBound props (npUnique key).length i)
        ≤ idxOf (key.get ⟨r, hr⟩) (rng (npUnique key))
      ∧ idxOf (key.get ⟨r, hr⟩) (rng (npUnique key))
        < npSliceIdx (rng (npUnique key)).length
            (specSplitBound props (npUnique key).length (i + 1)) := by
  rw [(split_masks_eq key props rng hperm).2 i hi, specSplitMask,
    getD_map _ _ r hr false (key.get ⟨r, hr⟩), getD_eq_get key r hr,
    decide_eq_true_eq]
  have hnd : (rng (npUnique key)).Nodup := hperm.nodup_iff.mpr (npUnique_nodup key)
  have hk : key.get ⟨r, hr⟩ ∈ rng (npUnique key) :=
    hperm.mem_iff.mpr ((mem_npUnique _ key).mpr (key.get_mem r hr))
  exact mem_npSlice_iff _ _ hnd hk _ _

/-- Shared helper: for nonnegative proportions summing to 1, every row is
marked by exactly one mask, and rows carrying equal group keys are never
marked by two distinct masks. -/
theorem split_partition (key : List K) (props : List ℚ)
    (rng : List K → List K) (hperm : (rng (npUnique key)).Perm (npUnique key))
    (hnn : ∀ p ∈ props, 0 ≤ p) (hsum : props.sum = 1) :
    (∀ r, ∀ hr : r < key.length,
      ∃! i, i < (get_random_split key props rng).length
        ∧ ((get_random_split key props rng).getD i []).getD r false = true)
    ∧ (∀ i j, i ≠ j → ∀ r s, ∀ hr : r < key.length, ∀ hs : s < key.length,
        key.get ⟨r, hr⟩ = key.get ⟨s, hs⟩ →
        ¬(((get_random_split key props rng).getD i []).getD r false = true
          ∧ ((get_random_split key props rng).getD j []).getD s false = true)) := by
  have hlen : (get_random_split key props rng).length = props.length :=
    (split_masks_eq key props rng hperm).1
  have hn : (rng (npUnique key)).length = (npUnique key).length := hperm.length_eq
  set n := (npUnique key).length with hndef
  have hcB : ∀ i, npSliceIdx (rng (npUnique key)).length (specSplitBound props n i)
      = (specSplitBound props n i).toNat := by
    intro i
    rw [hn]
    exact npSliceIdx_of_bounds n _ (specSplitBound_nonneg props n hnn i)
      (specSplitBound_le props n hnn hsum i)
  have hmono : ∀ i, i < props.length →
      (specSplitBound props n i).toNat ≤ (specSplitBound props n (i + 1)).toNat := by
    intro i _
    exact Int.toNat_le_toNat (specSplitBound_mono props n hnn i)
  have hc0 : (specSplitBound props n 0).toNat = 0 := by
    rw [specSplitBound_zero]
    rfl
  have hclast : (specSplitBound props n props.length).toNat = n := by
    rw [specSplitBound_last props n hsum]
    exact Int.toNat_natCast n
  have hmask : ∀ i r, ∀ hi : i < props.length, ∀ hr : r < key.length,
      (((get_random_split key props rng).getD i []).getD r false = true ↔
        (specSplitBound props n i).toNat ≤ idxOf (key.get ⟨r, hr⟩) (rng (npUnique key))
        ∧ idxOf (key.get ⟨r, hr⟩) (rng (npUnique key))
          < (specSplitBound props n (i + 1)).toNat) := by
    intro i r hi hr
    rw [mask_true_iff key props rng hperm i r hi hr, hcB i, hcB (i + 1)]
  have hidx : ∀ r, ∀ hr : r < key.length,
      idxOf (key.get ⟨r, hr⟩) (rng (npUnique key)) < n := by
    intro r hr
    have hk : key.get ⟨r, hr⟩ ∈ rng (npUnique key) :=
      hperm.mem_iff.mpr ((mem_npUnique _ key).mpr (key.get_mem r hr))
    have := idxOf_lt_length _ _ hk
    omega
  constructor
  · intro r hr
    obtain ⟨i, ⟨hi, hlo, hhi⟩, huniq⟩ :=
      existsUnique_band (fun i => (specSplitBound props n i).toNat) props.length
        hmono (idxOf (key.get ⟨r, hr⟩) (rng (npUnique key)))
        (by show (specSplitBound props n 0).toNat ≤ _; omega)
        (by show _ < (specSplitBound props n props.length).toNat
            rw [hclast]; exact hidx r hr)
    refine ⟨i, ⟨by omega, (hmask i r hi hr).mpr ⟨hlo, hhi⟩⟩, ?_⟩
    rintro j ⟨hj, hjmask⟩
    have hj' : j < props.length := by omega
    exact huniq j ⟨hj', (hmask j r hj' hr).mp hjmask⟩
  · rintro i j hne r s hr hs hkey ⟨hmi, hmj⟩
    have hi : i < props.length := by
      by_contra hle
      rw [getD_of_length_le _ i (by omega) [], getD_of_length_le _ r (by simp) false]
        at hmi
      exact Bool.false_ne_true hmi
    have hj : j < props.length := by
      by_contra hle
      rw [getD_of_length_le _ j (by omega) [], getD_of_length_le _ s (by simp) false]
        at hmj
      exact Bool.false_ne_true hmj
    obtain ⟨hloi, hhii⟩ := (hmask i r hi hr).mp hmi
    obtain ⟨hloj, hhij⟩ := (hmask j s hj hs).mp hmj
    rw [← hkey] at hloj hhij
    obtain ⟨w, _, huniq⟩ :=
      existsUnique_band (fun i => (specSplitBound props n i).toNat) props.length
        hmono (idxOf (key.get ⟨r, hr⟩) (rng (npUnique key)))
        (by show (specSplitBound props n 0).toNat ≤ _; omega)
        (by show _ < (specSplitBound props n props.length).toNat
            rw [hclast]; exact hidx r hr)
    have hwi := huniq i ⟨hi, hloi, hhii⟩
    have hwj := huniq j ⟨hj, hloj, hhij⟩
    exact hne (hwi.trans hwj.symm)

/-- C2: for nonnegative proportions summing to 1, every row is marked by
exactly one mask (the masks are pairwise disjoint and jointly cover all
rows), and rows carrying equal group keys are never marked by two distinct
masks. -/
theorem get_random_split_partition (key : List K) (props : List ℚ)
    (rng : List K → List K) (hperm : (rng (npUnique key)).Perm (npUnique key))
    (hnn : ∀ p ∈ props, 0 ≤ p) (hsum : props.sum = 1) :
    (∀ r, ∀ hr : r < key.length,
      ∃! i, i < (get_random_split key props rng).length
        ∧ ((get_random_split key props rng).getD i []).getD r false = true)
    ∧ (∀ i j, i ≠ j → ∀ r s, ∀ hr : r < key.length, ∀ hs : s < key.length,
        key.get ⟨r, hr⟩ = key.get ⟨s, hs⟩ →
        ¬(((get_random_split key props rng).getD i []).getD r false = true
          ∧ ((get_random_split key props rng).getD j []).getD s false = true)) :=
  split_partition key props rng hperm hnn hsum

/-- Witness for C2: two rows with distinct keys, a single proportion of 1,
identity shuffle. -/
theorem get_random_split_partition_witness :
    (∀ p ∈ ([1] : List ℚ), 0 ≤ p) ∧ ([1] : List ℚ).sum = 1
    ∧ (∀ r, ∀ hr : r < ([0, 1] : List ℤ).length,
      ∃! i, i < (get_random_split ([0, 1] : List ℤ) [1] id).length
        ∧ ((get_random_split ([0, 1] : List ℤ) [1] id).getD i []).getD r false
            = true) :=
  ⟨by intro p hp; rw [List.mem_singleton] at hp; subst hp; norm_num,
    by simp,
    (get_random_split_partition ([0, 1] : List ℤ) [1] id (List.Perm.refl _)
      (by intro p hp; rw [List.mem_singleton] at hp; subst hp; norm_num)
      (by simp)).1⟩


/-- A Python slice of a list is a sublist of it. -/
theorem npSlice_sublist (l : List K) (a b : ℤ) : (npSlice l a b).Sublist l :=
  ((l.take (npSliceIdx l.length b)).drop_sublist _).trans (l.take_sublist _)

/-- The length of a slice with ordered in-range bounds. -/
theorem npSlice_length (l : List K) (a b : ℤ) (h0 : 0 ≤ a) (hab : a ≤ b)
    (hb : b ≤ l.length) : (npSlice l a b).length = (b - a).toNat := by
  rw [npSlice, List.length_drop, List.length_take,
    npSliceIdx_of_bounds _ _ (le_trans h0 hab) hb,
    npSliceIdx_of_bounds _ _ h0 (le_trans hab hb)]
  omega

/-- Filtering the keys through their own elementwise mask keeps exactly the
keys satisfying the predicate. -/
theorem zip_map_filterMap (key : List K) (f : K → Bool) :
    ((key.zip (key.map f)).filterMap fun km => if km.2 then some km.1 else none)
      = key.filter f := by
  induction key with
  | nil => rfl
  | cons k t ih =>
    by_cases hf : f k
    · simp only [List.map_cons, List.zip_cons_cons, List.filterMap_cons, hf, if_pos,
        List.filter_cons, ih]
    · simp only [List.map_cons, List.zip_cons_cons, List.filterMap_cons, hf, if_neg,
        List.filter_cons, ih]
      simp [hf]

/-- The unique keys received by the membership mask of a slice are exactly
the slice elements, provided all unique keys occur among the rows. -/
theorem trueKeys_isin_length (key : List K) (u : List K)
    (hperm : u.Perm (npUnique key)) (a b : ℤ) :
    (trueKeys key (npIsin key (npSlice u a b))).length = (npSlice u a b).length := by
  have hnd : u.Nodup := hperm.nodup_iff.mpr (npUnique_nodup key)
  have hs : (npSlice u a b).Nodup := (npSlice_sublist u a b).nodup hnd
  have htk : trueKeys key (npIsin key (npSlice u a b))
      = (key.filter fun k => decide (k ∈ npSlice u a b)).dedup := by
    rw [trueKeys, npIsin, zip_map_filterMap]
  have hperm2 : ((key.filter fun k => decide (k ∈ npSlice u a b)).dedup).Perm
      (npSlice u a b) := by
    rw [List.perm_ext_iff_of_nodup (List.nodup_dedup _) hs]
    intro x
    rw [List.mem_dedup, List.mem_filter, decide_eq_true_eq]
    constructor
    · exact fun h => h.2
    · intro hx
      refine ⟨?_, hx⟩
      have hxu : x ∈ u := (npSlice_sublist u a b).subset hx
      exact (mem_npUnique x key).mp (hperm.mem_iff.mp hxu)
  rw [htk, hperm2.length_eq]

/-- C3 counterexample: for the ten keys `0..9` and proportions
`[0.7, 0.15, 0.15]`, the second partition receives 1 unique key and the
third receives 2 — not 2 and 1 as claimed.  The boundaries are
`⌊[0, .7, .85, 1]·10⌋ = [0, 7, 8, 10]`, so the slice sizes are 7, 1, 2. -/
theorem get_random_split_ten_docs_counterexample :
    ((id (npUnique ((List.range 10).map (Int.ofNat)))).Perm
      (npUnique ((List.range 10).map (Int.ofNat))))
    ∧ (npUnique ((List.range 10).map (Int.ofNat))).length = 10
    ∧ ¬((trueKeys ((List.range 10).map (Int.ofNat))
          ((get_random_split ((List.range 10).map (Int.ofNat))
            [7/10, 3/20, 3/20] id).getD 1 [])).length = 2
        ∧ (trueKeys ((List.range 10).map (Int.ofNat))
            ((get_random_split ((List.range 10).map (Int.ofNat))
              [7/10, 3/20, 3/20] id).getD 2 [])).length = 1) := by
  have hsp : splitPoints [7/10, 3/20, 3/20]
      (id (npUnique ((List.range 10).map (Int.ofNat)))).length = [0, 7, 8, 10] := by
    have h10 : (id (npUnique ((List.range 10).map (Int.ofNat)))).length = 10 := by decide
    rw [h10, splitPoints, cumsum0]
    simp only [List.scanl, List.map]
    norm_num
  refine ⟨List.Perm.refl _, by decide, ?_⟩
  have heval : get_random_split ((List.range 10).map (Int.ofNat))
      [7/10, 3/20, 3/20] id
      = (([0, 7, 8, 10].zip [7, 8, 10]).map
          fun ij => npIsin ((List.range 10).map (Int.ofNat))
            (npSlice (id (npUnique ((List.range 10).map (Int.ofNat)))) ij.1 ij.2)) := by
    rw [get_random_split, hsp]
    rfl
  rw [heval]
  decide

/-- C3 (amended): for every key array with exactly 10 unique group keys and
proportions `[0.7, 0.15, 0.15]`, the three partitions receive exactly 7, 1
and 2 unique group keys respectively (floor boundaries `[0, 7, 8, 10]`),
and every row lands in exactly one partition. -/
theorem get_random_split_ten_docs (key : List K) (rng : List K → List K)
    (hperm : (rng (npUnique key)).Perm (npUnique key))
    (h10 : (npUnique key).length = 10) :
    (get_random_split key [7/10, 3/20, 3/20] rng).length = 3
    ∧ (trueKeys key ((get_random_split key [7/10, 3/20, 3/20] rng).getD 0 [])).length = 7
    ∧ (trueKeys key ((get_random_split key [7/10, 3/20, 3/20] rng).getD 1 [])).length = 1
    ∧ (trueKeys key ((get_random_split key [7/10, 3/20, 3/20] rng).getD 2 [])).length = 2
    ∧ ∀ r, ∀ hr : r < key.length,
        ∃! i, i < (get_random_split key [7/10, 3/20, 3/20] rng).length
          ∧ ((get_random_split key [7/10, 3/20, 3/20] rng).getD i []).getD r false
              = true := by
  have hb0 : specSplitBound [7/10, 3/20, 3/20] 10 0 = 0 := specSplitBound_zero _ _
  have hb1 : specSplitBound [7/10, 3/20, 3/20] 10 1 = 7 := by
    rw [specSplitBound]
    norm_num
  have hb2 : specSplitBound [7/10, 3/20, 3/20] 10 2 = 8 := by
    rw [specSplitBound]
    norm_num
  have hb3 : specSplitBound [7/10, 3/20, 3/20] 10 3 = 10 := by
    rw [specSplitBound]
    norm_num
  have hul : (rng (npUnique key)).length = 10 := hperm.length_eq.trans h10
  have hmask : ∀ i, i < 3 →
      (get_random_split key [7/10, 3/20, 3/20] rng).getD i []
        = npIsin key (npSlice (rng (npUnique key))
            (specSplitBound [7/10, 3/20, 3/20] 10 i)
            (specSplitBound [7/10, 3/20, 3/20] 10 (i + 1))) := by
    intro i hi
    rw [(split_masks_eq key [7/10, 3/20, 3/20] rng hperm).2 i (by simpa using hi)]
    rw [specSplitMask, h10, npIsin]
  have hlen3 : (get_random_split key [7/10, 3/20, 3/20] rng).length = 3 := by
    simpa using (split_masks_eq key [7/10, 3/20, 3/20] rng hperm).1
  refine ⟨hlen3, ?_, ?_, ?_, ?_⟩
  · rw [hmask 0 (by omega), trueKeys_isin_length key _ hperm,
      npSlice_length _ _ _ (by rw [hb0]) (by rw [hb0, hb1]; omega)
        (by rw [hb1, hul]; omega), hb0, hb1]
    rfl
  · rw [hmask 1 (by omega), trueKeys_isin_length key _ hperm,
      npSlice_length _ _ _ (by rw [hb1]; omega) (by rw [hb1, hb2]; omega)
        (by rw [hb2, hul]; omega), hb1, hb2]
    rfl
  · rw [hmask 2 (by omega), trueKeys_isin_length key _ hperm,
      npSlice_length _ _ _ (by rw [hb2]; omega) (by rw [hb2, hb3]; omega)
        (by rw [hb3, hul]; omega), hb2, hb3]
    rfl
  · exact (split_partition key [7/10, 3/20, 3/20] rng hperm
      (by intro p hp; fin_cases hp <;> norm_num) (by norm_num)).1

/-- Witness for C3 (amended) at keys `0..9`, identity shuffle. -/
theorem get_random_split_ten_docs_witness :
    ((id (npUnique ((List.range 10).map (Int.ofNat)))).Perm
      (npUnique ((List.range 10).map (Int.ofNat))))
    ∧ (npUnique ((List.range 10).map (Int.ofNat))).length = 10
    ∧ (trueKeys ((List.range 10).map (Int.ofNat))
        ((get_random_split ((List.range 10).map (Int.ofNat))
          [7/10, 3/20, 3/20] id).getD 0 [])).length = 7 :=
  ⟨List.Perm.refl _, by decide,
    (get_random_split_ten_docs ((List.range 10).map (Int.ofNat)) id
      (List.Perm.refl _) (by decide)).2.1⟩

/-- C6 (amended): `get_random_split` is a deterministic function of the key
array, the proportions and the shuffle the ambient global RNG state
produces: two runs whose global NumPy random state yields the same shuffle
of the unique keys (e.g. both seeded with `np.random.seed(seed)` right
before the call, as `train` seeds its run) return identical masks. -/
theorem get_random_split_deterministic (key : List K) (props : List ℚ)
    (rng1 rng2 : List K → List K) (h : rng1 (npUnique key) = rng2 (npUnique key)) :
    get_random_split key props rng1 = get_random_split key props rng2 := by
  rw [get_random_split, get_random_split, h]

/-- Witness for C6 (amended) with two extensionally different shuffle
functions that agree on the unique keys of the input. -/
theorem get_random_split_deterministic_witness :
    (id (npUnique ([0, 1] : List ℤ))
        = (fun l => l.reverse.reverse) (npUnique ([0, 1] : List ℤ)))
    ∧ get_random_split ([0, 1] : List ℤ) [1] id
        = get_random_split ([0, 1] : List ℤ) [1] (fun l => l.reverse.reverse) :=
  ⟨by simp, get_random_split_deterministic [0, 1] [1] id _ (by simp)⟩

/-- Evaluation of the splitter on `[0, 1]`, even proportions, identity
shuffle. -/
theorem split_eval_id :
    get_random_split ([0, 1] : List ℤ) [1/2, 1/2] id = [[true, false], [false, true]] := by
  have hsp : splitPoints [1/2, 1/2] (id (npUnique ([0, 1] : List ℤ))).length
      = [0, 1, 2] := by
    have h2 : (id (npUnique ([0, 1] : List ℤ))).length = 2 := by decide
    rw [h2, splitPoints, cumsum0]
    simp only [List.scanl, List.map]
    norm_num
  rw [get_random_split, hsp]
  decide

/-- Evaluation of the splitter on `[0, 1]`, even proportions, reversing
shuffle. -/
theorem split_eval_reverse :
    get_random_split ([0, 1] : List ℤ) [1/2, 1/2] List.reverse
      = [[false, true], [true, false]] := by
  have hsp : splitPoints [1/2, 1/2] ((npUnique ([0, 1] : List ℤ)).reverse).length
      = [0, 1, 2] := by
    have h2 : ((npUnique ([0, 1] : List ℤ)).reverse).length = 2 := by decide
    rw [h2, splitPoints, cumsum0]
    simp only [List.scanl, List.map]
    norm_num
  rw [get_random_split, hsp]
  decide

/-- C6 counterexample: the masks depend on the ambient global RNG state,
not only on `(group_key, proportions, seed)` — `get_random_split` has no
seed parameter, and two calls reaching the shuffle with different global
states (both legal shuffles, i.e. permutations of the unique keys) return
different masks for identical key array and proportions. -/
theorem get_random_split_global_state_counterexample :
    ((List.reverse (npUnique ([0, 1] : List ℤ))).Perm (npUnique ([0, 1] : List ℤ)))
    ∧ get_random_split ([0, 1] : List ℤ) [1/2, 1/2] List.reverse
        ≠ get_random_split ([0, 1] : List ℤ) [1/2, 1/2] id := by
  refine ⟨by decide, ?_⟩
  rw [split_eval_id, split_eval_reverse]
  decide

/-- Strictly increasing adjacent steps add up. -/
theorem chain_strict (c : Nat → Nat) (m : Nat) (h : ∀ i, i < m → c i < c (i + 1)) :
    c 0 + m ≤ c m := by
  induction m with
  | zero => omega
  | succ m ih =>
    have h1 := ih fun i hi => h i (by omega)
    have h2 := h m (by omega)
    omega

/-- Among more than `n` nondecreasing cut points bounded by `n`, two
adjacent ones coincide. -/
theorem exists_adjacent_eq (c : Nat → Nat) (m n : Nat)
    (hmono : ∀ i, i < m → c i ≤ c (i + 1)) (hbound : ∀ i, i ≤ m → c i ≤ n)
    (hm : n < m) : ∃ i, i < m ∧ c i = c (i + 1) := by
  by_contra hno
  push_neg at hno
  have hstrict : ∀ i, i < m → c i < c (i + 1) := by
    intro i hi
    have := hmono i hi
    have := hno i hi
    omega
  have := chain_strict c m hstrict
  have := hbound m le_rfl
  omega

/-- Any resolved slice bound is at most the length. -/
theorem npSliceIdx_le (n : Nat) (p : ℤ) : npSliceIdx n p ≤ n := by
  rw [npSliceIdx]
  split
  · omega
  · omega

/-- Resolution of slice bounds is monotone on nonnegative bounds. -/
theorem npSliceIdx_mono (n : Nat) (p q : ℤ) (hp : 0 ≤ p) (hpq : p ≤ q) :
    npSliceIdx n p ≤ npSliceIdx n q := by
  rw [npSliceIdx, npSliceIdx, if_neg (by omega), if_neg (by omega)]
  omega

/-- C8: with nonnegative proportions outnumbering the unique group keys,
`get_random_split` still returns one mask per proportion (no error), and
some mask is all-`false` (an empty partition). -/
theorem get_random_split_excess_proportions (key : List K) (props : List ℚ)
    (rng : List K → List K) (hperm : (rng (npUnique key)).Perm (npUnique key))
    (hnn : ∀ p ∈ props, 0 ≤ p) (hmore : (npUnique key).length < props.length) :
    (get_random_split key props rng).length = props.length
    ∧ ∃ i, i < props.length ∧
        ∀ r, ((get_random_split key props rng).getD i []).getD r false = false := by
  have hul : (rng (npUnique key)).length = (npUnique key).length := hperm.length_eq
  set n := (npUnique key).length with hndef
  obtain ⟨i, hi, heq⟩ := exists_adjacent_eq
    (fun i => npSliceIdx n (specSplitBound props n i)) props.length n
    (fun i _ => npSliceIdx_mono n _ _ (specSplitBound_nonneg props n hnn i)
      (specSplitBound_mono props n hnn i))
    (fun i _ => npSliceIdx_le n _) hmore
  refine ⟨(split_masks_eq key props rng hperm).1, i, hi, ?_⟩
  intro r
  rw [(split_masks_eq key props rng hperm).2 i hi, specSplitMask]
  have hslice : npSlice (rng (npUnique key)) (specSplitBound props n i)
      (specSplitBound props n (i + 1)) = [] := by
    rw [npSlice, hul]
    have hlen : ((rng (npUnique key)).take
        (npSliceIdx n (specSplitBound props n (i + 1)))).length
        ≤ npSliceIdx n (specSplitBound props n i) := by
      rw [List.length_take]
      have : npSliceIdx n (specSplitBound props n i)
          = npSliceIdx n (specSplitBound props n (i + 1)) := heq
      omega
    exact List.drop_eq_nil_of_le hlen
  rw [hslice]
  by_cases hr : r < key.length
  · rw [getD_map _ _ r hr false (key.get ⟨r, hr⟩)]
    simp
  · rw [getD_of_length_le _ r (by rw [List.length_map]; omega) false]

/-- Witness for C8: one unique key, two proportions. -/
theorem get_random_split_excess_proportions_witness :
    ((id (npUnique ([5, 5] : List ℤ))).Perm (npUnique ([5, 5] : List ℤ)))
    ∧ (∀ p ∈ ([1, 1] : List ℚ), 0 ≤ p)
    ∧ (npUnique ([5, 5] : List ℤ)).length < ([1, 1] : List ℚ).length
    ∧ ∃ i, i < ([1, 1] : List ℚ).length ∧
        ∀ r, ((get_random_split ([5, 5] : List ℤ) [1, 1] id).getD i []).getD r false
            = false :=
  ⟨List.Perm.refl _, by intro p hp; fin_cases hp <;> norm_num, by decide,
    (get_random_split_excess_proportions ([5, 5] : List ℤ) [1, 1] id
      (List.Perm.refl _) (by intro p hp; fin_cases hp <;> norm_num)
      (by decide)).2⟩

/-- `getD` through `take`, in range. -/
theorem getD_take {α : Type} (l : List α) (m i : Nat) (h : i < m) (d : α) :
    (l.take m).getD i d = l.getD i d := by
  induction l generalizing m i with
  | nil => simp
  | cons x t ih =>
    cases m with
    | zero => omega
    | succ m =>
      cases i with
      | zero => simp
      | succ i =>
        rw [List.take_succ_cons, List.getD_cons_succ, List.getD_cons_succ]
        exact ih m i (by omega)

/-- `getD` through `drop`. -/
theorem getD_drop {α : Type} (l : List α) (m i : Nat) (d : α) :
    (l.drop m).getD i d = l.getD (m + i) d := by
  induction l generalizing m with
  | nil => simp
  | cons x t ih =>
    cases m with
    | zero => simp
    | succ m =>
      rw [List.drop_succ_cons, ih m, show m + 1 + i = (m + i) + 1 by omega,
        List.getD_cons_succ]

/-- C9: `MyKerasClassifier.fit` splits the rows positionally at
`val_point = int(0.8·n) = ⌊4n/5⌋`: the underlying model is fitted on
exactly the first `⌊4n/5⌋` rows, the remaining rows form the validation
set driving early stopping, and the two row blocks are disjoint (being a
prefix and the matching suffix) and together are exactly the input. -/
theorem myKerasClassifierFit_split (X : List (List ℚ)) (y : List ℚ)
    (hy : y.length = X.length) :
    (myKerasClassifierFit X y).fitX.length = X.length * 4 / 5
    ∧ (myKerasClassifierFit X y).valX.length = X.length - X.length * 4 / 5
    ∧ (myKerasClassifierFit X y).fitY.length = X.length * 4 / 5
    ∧ (myKerasClassifierFit X y).valY.length = X.length - X.length * 4 / 5
    ∧ (∀ i, i < X.length * 4 / 5 →
        (myKerasClassifierFit X y).fitX.getD i [] = X.getD i []
        ∧ (myKerasClassifierFit X y).fitY.getD i 0 = y.getD i 0)
    ∧ (∀ i,
        (myKerasClassifierFit X y).valX.getD i [] = X.getD (X.length * 4 / 5 + i) []
        ∧ (myKerasClassifierFit X y).valY.getD i 0 = y.getD (X.length * 4 / 5 + i) 0)
    ∧ (myKerasClassifierFit X y).fitX ++ (myKerasClassifierFit X y).valX = X
    ∧ (myKerasClassifierFit X y).fitY ++ (myKerasClassifierFit X y).valY = y := by
  have hvp : X.length * 4 / 5 ≤ X.length := by omega
  refine ⟨?_, ?_, ?_, ?_, ?_, ?_, ?_, ?_⟩
  · show (X.take (X.length * 4 / 5)).length = X.length * 4 / 5
    rw [List.length_take]
    omega
  · show (X.drop (X.length * 4 / 5)).length = X.length - X.length * 4 / 5
    rw [List.length_drop]
  · show (y.take (X.length * 4 / 5)).length = X.length * 4 / 5
    rw [List.length_take]
    omega
  · show (y.drop (X.length * 4 / 5)).length = X.length - X.length * 4 / 5
    rw [List.length_drop]
    omega
  · intro i hi
    exact ⟨getD_take X _ i hi [], getD_take y _ i hi 0⟩
  · intro i
    exact ⟨getD_drop X _ i [], getD_drop y _ i 0⟩
  · exact List.take_append_drop _ X
  · exact List.take_append_drop _ y

/-- Witness for C9 on five rows: the fit block has `⌊4·5/5⌋ = 4` rows. -/
theorem myKerasClassifierFit_split_witness :
    (([10, 20, 30, 40, 50] : List ℚ).length
        = ([[1], [2], [3], [4], [5]] : List (List ℚ)).length)
    ∧ (myKerasClassifierFit [[1], [2], [3], [4], [5]] [10, 20, 30, 40, 50]).fitX.length
        = ([[1], [2], [3], [4], [5]] : List (List ℚ)).length * 4 / 5 :=
  ⟨by decide,
    (myKerasClassifierFit_split [[1], [2], [3], [4], [5]] [10, 20, 30, 40, 50]
      (by decide)).1⟩

/-- Dropping columns preserves the value found under each surviving
column name: looking a kept column up in the filtered row equals looking
it up in the original row. -/
theorem filter_zip_lookup (cols : List Col) (row : List ℚ) (pred : Col → Bool)
    (c : Col) (hc : c ∈ cols) (hpc : pred c = true) (hlen : row.length = cols.length) :
    (((cols.zip row).filter fun p => pred p.1).map Prod.snd).getD
        (idxOf c (cols.filter pred)) 0
      = row.getD (idxOf c cols) 0 := by
  induction cols generalizing row with
  | nil => simp at hc
  | cons c1 ct ih =>
    match row with
    | [] => simp at hlen
    | v :: vt =>
      have hlen' : vt.length = ct.length := by simpa using hlen
      by_cases he : c = c1
      · subst he
        have h1 : ((c :: ct).zip (v :: vt)).filter (fun p => pred p.1)
            = (c, v) :: (ct.zip vt).filter (fun p => pred p.1) := by
          rw [List.zip_cons_cons, List.filter_cons]
          simp [hpc]
        have h2 : (c :: ct).filter pred = c :: ct.filter pred := by
          rw [List.filter_cons, if_pos hpc]
        rw [h1, h2, List.map_cons, idxOf, if_pos rfl, idxOf, if_pos rfl]
        simp
      · have hct : c ∈ ct := by
          rcases List.mem_cons.mp hc with h | h
          · exact absurd h he
          · exact h
        by_cases hp1 : pred c1 = true
        · have h1 : ((c1 :: ct).zip (v :: vt)).filter (fun p => pred p.1)
              = (c1, v) :: (ct.zip vt).filter (fun p => pred p.1) := by
            rw [List.zip_cons_cons, List.filter_cons]
            simp [hp1]
          have h2 : (c1 :: ct).filter pred = c1 :: ct.filter pred := by
            rw [List.filter_cons, if_pos hp1]
          rw [h1, h2, List.map_cons, idxOf, if_neg he, idxOf, if_neg he,
            List.getD_cons_succ, List.getD_cons_succ]
          exact ih vt hct hlen'
        · have h1 : ((c1 :: ct).zip (v :: vt)).filter (fun p => pred p.1)
              = (ct.zip vt).filter (fun p => pred p.1) := by
            rw [List.zip_cons_cons, List.filter_cons]
            simp [hp1]
          have h2 : (c1 :: ct).filter pred = ct.filter pred := by
            rw [List.filter_cons, if_neg (by simp [hp1])]
          rw [h1, h2, idxOf, if_neg he, List.getD_cons_succ]
          exact ih vt hct hlen'

/-- C4: with `data_cols` unspecified, the feature block `X` is the frame
minus the group-identifier columns `url`, `path` and the label
`content_label`; `y` is the label column; the group identifiers never
appear among the feature columns; and every kept feature column carries
its original per-row values. -/
theorem get_numpy_dataset_default_cols (ddf : Frame) (srt : List Nat)
    (hrows : ∀ row ∈ ddf.rows, row.length = ddf.cols.length) :
    (get_numpy_dataset ddf none false false srt).X
        = .dense ((dropCols ddf [Col.url, Col.path, Col.content_label]).rows)
    ∧ (get_numpy_dataset ddf none false false srt).y = colVals ddf Col.content_label
    ∧ (∀ c, c ∈ (dropCols ddf [Col.url, Col.path, Col.content_label]).cols ↔
        c ∈ ddf.cols ∧ c ≠ Col.url ∧ c ≠ Col.path ∧ c ≠ Col.content_label)
    ∧ Col.url ∉ (dropCols ddf [Col.url, Col.path, Col.content_label]).cols
    ∧ Col.path ∉ (dropCols ddf [Col.url, Col.path, Col.content_label]).cols
    ∧ ∀ r c, c ∈ (dropCols ddf [Col.url, Col.path, Col.content_label]).cols →
        ((dropCols ddf [Col.url, Col.path, Col.content_label]).rows.getD r []).getD
            (idxOf c (dropCols ddf [Col.url, Col.path, Col.content_label]).cols) 0
          = (ddf.rows.getD r []).getD (idxOf c ddf.cols) 0 := by
  have hmem : ∀ c, c ∈ (dropCols ddf [Col.url, Col.path, Col.content_label]).cols ↔
      c ∈ ddf.cols ∧ c ≠ Col.url ∧ c ≠ Col.path ∧ c ≠ Col.content_label := by
    intro c
    simp only [dropCols, List.mem_filter, decide_eq_true_eq, List.mem_cons,
      List.not_mem_nil, or_false]
    tauto
  refine ⟨rfl, rfl, hmem, ?_, ?_, ?_⟩
  · intro h
    exact ((hmem Col.url).mp h).2.1 rfl
  · intro h
    exact ((hmem Col.path).mp h).2.2.1 rfl
  · intro r c hcmem
    obtain ⟨hcin, hne1, hne2, hne3⟩ := (hmem c).mp hcmem
    by_cases hr : r < ddf.rows.length
    · have hdr : (dropCols ddf [Col.url, Col.path, Col.content_label]).rows.getD r []
          = ((ddf.cols.zip (ddf.rows.getD r [])).filter
              fun p => decide (p.1 ∉ [Col.url, Col.path, Col.content_label])).map
            Prod.snd := by
        rw [show (dropCols ddf [Col.url, Col.path, Col.content_label]).rows
            = ddf.rows.map (fun row => ((ddf.cols.zip row).filter
                fun p => decide (p.1 ∉ [Col.url, Col.path, Col.content_label])).map
              Prod.snd) from rfl]
        rw [getD_map _ _ r hr [] []]
      rw [hdr]
      have hrowlen : (ddf.rows.getD r []).length = ddf.cols.length := by
        apply hrows
        rw [getD_eq_get _ r hr]
        exact List.get_mem _ r hr
      exact filter_zip_lookup ddf.cols (ddf.rows.getD r [])
        (fun c => decide (c ∉ [Col.url, Col.path, Col.content_label])) c hcin
        (by simp only [decide_eq_true_eq, List.mem_cons, List.not_mem_nil, or_false]
            push_neg
            exact ⟨hne1, hne2, hne3⟩)
        hrowlen
    · have hlen2 : (dropCols ddf [Col.url, Col.path, Col.content_label]).rows.length
          = ddf.rows.length := by
        simp [dropCols]
      rw [getD_of_length_le _ r (by omega) [], getD_of_length_le _ r (by omega) []]
      simp

/-- Witness for C4 on a one-row frame with one feature column. -/
theorem get_numpy_dataset_default_cols_witness :
    (∀ row ∈ oneFrame.rows, row.length = oneFrame.cols.length)
    ∧ (get_numpy_dataset oneFrame none false false []).y
        = colVals oneFrame Col.content_label :=
  ⟨by decide, (get_numpy_dataset_default_cols oneFrame [] (by decide)).2.1⟩

/-- Removing the first occurrence splits off a permutation. -/
theorem removeFirst_perm (x : Nat) (q q' : List Nat) (h : removeFirst x q = some q') :
    q.Perm (x :: q') := by
  induction q generalizing q' with
  | nil => simp [removeFirst] at h
  | cons y t ih =>
    rw [removeFirst] at h
    by_cases he : x = y
    · rw [if_pos he] at h
      obtain rfl : t = q' := by simpa using h
      subst he
      exact List.Perm.refl _
    · rw [if_neg he] at h
      match ht : removeFirst x t with
      | none =>
        rw [ht] at h
        simp at h
      | some t' =>
        rw [ht] at h
        obtain rfl : y :: t' = q' := by simpa using h
        exact ((ih t' ht).cons y).trans (List.Perm.swap x y t')

/-- A failed removal means absence. -/
theorem removeFirst_none (x : Nat) (q : List Nat) (h : removeFirst x q = none) :
    x ∉ q := by
  induction q with
  | nil => simp
  | cons y t ih =>
    rw [removeFirst] at h
    by_cases he : x = y
    · rw [if_pos he] at h
      simp at h
    · rw [if_neg he] at h
      match ht : removeFirst x t with
      | some t' =>
        rw [ht] at h
        simp at h
      | none =>
        simp only [List.mem_cons, not_or]
        exact ⟨he, ih ht⟩

/-- The executable permutation check decides `List.Perm`. -/
theorem permCheck_iff (l q : List Nat) : permCheck l q = true ↔ l.Perm q := by
  induction l generalizing q with
  | nil =>
    cases q with
    | nil => simp [permCheck]
    | cons y t =>
      rw [permCheck]
      simp only [Bool.false_eq_true, false_iff]
      intro hp
      simpa using hp.length_eq
  | cons x t ih =>
    rw [permCheck]
    match hr : removeFirst x q with
    | none =>
      simp only [Bool.false_eq_true, false_iff]
      intro hp
      exact removeFirst_none x q hr (hp.subset (List.mem_cons_self x t))
    | some q' =>
      rw [ih q']
      constructor
      · intro hp
        exact (hp.cons x).trans (removeFirst_perm x q q' hr).symm
      · intro hp
        exact (hp.trans (removeFirst_perm x q q' hr)).cons_inv

/-- The executable nondecreasing check decides `Chain' (· ≤ ·)`. -/
theorem sortedLe_iff (l : List Nat) : sortedLe l = true ↔ l.Chain' (· ≤ ·) := by
  induction l with
  | nil => simp [sortedLe]
  | cons a t ih =>
    cases t with
    | nil => simp [sortedLe]
    | cons b t2 =>
      rw [sortedLe, List.chain'_cons, Bool.and_eq_true, decide_eq_true_eq, ih]

/-- The executable lexicographic chain check decides the stable-order
chain. -/
theorem stableLex_iff (l : List (Nat × Nat)) :
    stableLex l = true ↔
      l.Chain' fun a b => a.1 < b.1 ∨ (a.1 = b.1 ∧ a.2 < b.2) := by
  induction l with
  | nil => simp [stableLex]
  | cons a t ih =>
    cases t with
    | nil => simp [stableLex]
    | cons b t2 =>
      rw [stableLex, List.chain'_cons, Bool.and_eq_true, ih]
      simp

/-- C5 (amended): with `categorize_id=True`, one and the same permutation
`p` — any valid result of `np.argsort` on the category codes — is applied
to the id, X and y components, so each output row's feature vector stays
paired with its original label and group identity, and the output id
sequence is nondecreasing.  Stability of the sort is *not* guaranteed:
`np.argsort` defaults to `kind='quicksort'`, which is not stable. -/
theorem get_numpy_dataset_categorize (ddf : Frame) (data_cols : Option (List Col))
    (srt : List Nat) (hsrt : isSortPerm (npUniqueInverse (urlVals ddf)) srt) :
    ∃ p : List Nat,
      p.Perm (List.range ddf.rows.length)
      ∧ (get_numpy_dataset ddf data_cols true false srt).id
          = .categ (npIndex (npUniqueInverse (urlVals ddf)) 0 p)
      ∧ (get_numpy_dataset ddf data_cols true false srt).X
          = .dense (npIndex (featFrame ddf data_cols).rows [] p)
      ∧ (get_numpy_dataset ddf data_cols true false srt).y
          = npIndex (colVals ddf Col.content_label) 0 p
      ∧ (npIndex (npUniqueInverse (urlVals ddf)) 0 p).Chain' (· ≤ ·) := by
  have hbr : (ddf.rows.map fun r =>
      (r.getD (idxOf Col.url ddf.cols) 0, r.getD (idxOf Col.path ddf.cols) 0)).map
        Prod.fst = urlVals ddf := by
    rw [List.map_map]
    rfl
  have hlen : (npUniqueInverse (urlVals ddf)).length = ddf.rows.length := by
    simp [npUniqueInverse, urlVals]
  have hred : get_numpy_dataset ddf data_cols true false srt
      = ⟨.categ (npIndex (npUniqueInverse (urlVals ddf)) 0 srt),
         .dense (npIndex (featFrame ddf data_cols).rows [] srt),
         npIndex (colVals ddf Col.content_label) 0 srt⟩ := by
    rw [show get_numpy_dataset ddf data_cols true false srt
        = ⟨.categ (npIndex (npUniqueInverse ((ddf.rows.map fun r =>
              (r.getD (idxOf Col.url ddf.cols) 0,
               r.getD (idxOf Col.path ddf.cols) 0)).map Prod.fst)) 0 srt),
           .dense (npIndex (featFrame ddf data_cols).rows [] srt),
           npIndex (colVals ddf Col.content_label) 0 srt⟩ from rfl]
    rw [hbr]
  refine ⟨srt, ?_, ?_, ?_, ?_, (sortedLe_iff _).mp hsrt.2⟩
  · have h := (permCheck_iff _ _).mp hsrt.1
    rwa [hlen] at h
  · rw [hred]
  · rw [hred]
  · rw [hred]

/-- Witness for C5 (amended): the stable argsort of `exFrame`'s category
codes `[1, 0, 0]`. -/
theorem get_numpy_dataset_categorize_witness :
    isSortPerm (npUniqueInverse (urlVals exFrame)) [1, 2, 0]
    ∧ ∃ p : List Nat,
        p.Perm (List.range exFrame.rows.length)
        ∧ (get_numpy_dataset exFrame none true false [1, 2, 0]).id
            = .categ (npIndex (npUniqueInverse (urlVals exFrame)) 0 p)
        ∧ (get_numpy_dataset exFrame none true false [1, 2, 0]).X
            = .dense (npIndex (featFrame exFrame none).rows [] p)
        ∧ (get_numpy_dataset exFrame none true false [1, 2, 0]).y
            = npIndex (colVals exFrame Col.content_label) 0 p
        ∧ (npIndex (npUniqueInverse (urlVals exFrame)) 0 p).Chain' (· ≤ ·) :=
  ⟨by decide, get_numpy_dataset_categorize exFrame none [1, 2, 0] (by decide)⟩

/-- C5 counterexample: on `exFrame` the category codes are `[1, 0, 0]`;
both `[1, 2, 0]` (the stable order) and `[2, 1, 0]` are valid
`np.argsort(kind='quicksort')` results, and they yield different datasets,
so the sort the code relies on is not guaranteed stable — the claim's
"the sort is stable" does not hold for the default unstable quicksort. -/
theorem get_numpy_dataset_sort_not_stable :
    isSortPerm (npUniqueInverse (urlVals exFrame)) [2, 1, 0]
    ∧ isStableSortPerm (npUniqueInverse (urlVals exFrame)) [1, 2, 0]
    ∧ ¬(get_numpy_dataset exFrame none true false [2, 1, 0]
        = get_numpy_dataset exFrame none true false [1, 2, 0]) :=
  ⟨by decide, by decide, by decide⟩

/-- `roundF32` fixes zero. -/
theorem roundF32_zero : roundF32 0 = 0 := by
  rw [roundF32, if_pos rfl]

/-- Entries of a row with a different row index never match the query. -/
theorem rowEntries_filter_ne (row : List ℚ) (i0 j0 i j : Nat) (hne : i0 ≠ i) :
    (rowEntriesFrom i0 j0 row).filter
      (fun e => decide (e.1 = i) && decide (e.2.1 = j)) = [] := by
  induction row generalizing j0 with
  | nil => rfl
  | cons v t ih =>
    rw [rowEntriesFrom]
    by_cases hv : v = 0
    · rw [if_pos hv]
      exact ih (j0 + 1)
    · rw [if_neg hv, List.filter_cons]
      rw [if_neg (by simp [hne])]
      exact ih (j0 + 1)

/-- Summing a function of the matching entries of one row reads the cell
(value functions fixing zero see dropped zero cells correctly). -/
theorem rowEntries_filter_map_sum (g : ℚ → ℚ) (hg : g 0 = 0) (row : List ℚ)
    (i0 j0 j : Nat) :
    (((rowEntriesFrom i0 j0 row).filter
        (fun e => decide (e.1 = i0) && decide (e.2.1 = j))).map (fun e => g e.2.2)).sum
      = if j0 ≤ j then g (row.getD (j - j0) 0) else 0 := by
  induction row generalizing j0 with
  | nil =>
    rw [rowEntriesFrom]
    simp only [List.filter_nil, List.map_nil, List.sum_nil]
    split <;> simp [hg]
  | cons v t ih =>
    rw [rowEntriesFrom]
    by_cases hv : v = 0
    · rw [if_pos hv, ih (j0 + 1)]
      by_cases hj : j0 ≤ j
      · by_cases hjeq : j = j0
        · subst hjeq
          rw [if_neg (by omega), if_pos le_rfl]
          simp [hv, hg]
        · have hlt : j0 + 1 ≤ j := by omega
          rw [if_pos hlt, if_pos hj,
            show j - j0 = (j - (j0 + 1)) + 1 by omega, List.getD_cons_succ]
      · rw [if_neg (by omega), if_neg hj]
    · rw [if_neg hv, List.filter_cons]
      by_cases hjj : j0 = j
      · subst hjj
        rw [if_pos (by simp), List.map_cons, List.sum_cons, ih (j0 + 1),
          if_neg (by omega), if_pos le_rfl]
        simp
      · rw [if_neg (by simp [hjj]), ih (j0 + 1)]
        by_cases hj : j0 ≤ j
        · have hlt : j0 + 1 ≤ j := by omega
          rw [if_pos hlt, if_pos hj,
            show j - j0 = (j - (j0 + 1)) + 1 by omega, List.getD_cons_succ]
        · rw [if_neg (by omega), if_neg hj]

/-- Summing a function of the matching entries of a whole matrix reads the
cell. -/
theorem entries_filter_map_sum (g : ℚ → ℚ) (hg : g 0 = 0) (rows : List (List ℚ))
    (i0 i j : Nat) :
    (((entriesFrom i0 rows).filter
        (fun e => decide (e.1 = i) && decide (e.2.1 = j))).map (fun e => g e.2.2)).sum
      = if i0 ≤ i then g ((rows.getD (i - i0) []).getD j 0) else 0 := by
  induction rows generalizing i0 with
  | nil =>
    rw [entriesFrom]
    simp only [List.filter_nil, List.map_nil, List.sum_nil]
    split <;> simp [hg]
  | cons r rs ih =>
    rw [entriesFrom, List.filter_append, List.map_append, List.sum_append]
    by_cases hii : i0 = i
    · subst hii
      rw [rowEntries_filter_map_sum g hg r i0 0 j, if_pos (Nat.zero_le j),
        ih (i0 + 1), if_neg (by omega), if_pos le_rfl]
      simp
    · rw [rowEntries_filter_ne r i0 0 i j hii]
      simp only [List.map_nil, List.sum_nil, zero_add]
      rw [ih (i0 + 1)]
      by_cases hle : i0 ≤ i
      · rw [if_pos (by omega), if_pos hle,
          show i - i0 = (i - (i0 + 1)) + 1 by omega, List.getD_cons_succ]
      · rw [if_neg (by omega), if_neg hle]

/-- Reading any cell of the float32-cast sparse matrix built from a dense
matrix gives the float32-cast dense cell. -/
theorem spGet_cast32_toCOO (rows : List (List ℚ)) (i j : Nat) :
    spGet (cooCast32 (toCOO rows)) i j = roundF32 (dGet rows i j) := by
  rw [spGet]
  show ((((entriesFrom 0 rows).map fun e => (e.1, e.2.1, roundF32 e.2.2)).filter
      fun e => decide (e.1 = i) && decide (e.2.1 = j)).map fun e => e.2.2).sum = _
  rw [List.filter_map, List.map_map]
  have hpred : ∀ e ∈ entriesFrom 0 rows,
      ((fun e => decide (e.1 = i) && decide (e.2.1 = j)) ∘
        (fun e : Nat × Nat × ℚ => (e.1, e.2.1, roundF32 e.2.2))) e
      = (fun e : Nat × Nat × ℚ => decide (e.1 = i) && decide (e.2.1 = j)) e :=
    fun e _ => rfl
  rw [List.filter_congr hpred]
  show (((entriesFrom 0 rows).filter
      fun e => decide (e.1 = i) && decide (e.2.1 = j)).map
        fun e => roundF32 e.2.2).sum = _
  rw [entries_filter_map_sum roundF32 roundF32_zero rows 0 i j,
    if_pos (Nat.zero_le i)]
  rw [dGet, show i - 0 = i from rfl]

/-- C7 (amended): the sparse and the dense run assemble the same feature
block, and each cell of the sparse (CSR) matrix is the binary32 cast of
the corresponding dense cell — the two representations agree exactly on
all cells whose values are binary32-representable, and only the
`astype('float32')` cast of the sparse path separates them otherwise. -/
theorem get_numpy_dataset_sparse_vs_dense (ddf : Frame)
    (data_cols : Option (List Col)) (srt : List Nat) (i j : Nat) :
    (get_numpy_dataset ddf data_cols false true srt).X
        = .sparse (cooCast32 (toCOO (featFrame ddf data_cols).rows))
    ∧ (get_numpy_dataset ddf data_cols false false srt).X
        = .dense (featFrame ddf data_cols).rows
    ∧ spGet (cooCast32 (toCOO (featFrame ddf data_cols).rows)) i j
        = roundF32 (dGet (featFrame ddf data_cols).rows i j)
    ∧ (roundF32 (dGet (featFrame ddf data_cols).rows i j)
          = dGet (featFrame ddf data_cols).rows i j →
        spGet (cooCast32 (toCOO (featFrame ddf data_cols).rows)) i j
          = dGet (featFrame ddf data_cols).rows i j) := by
  refine ⟨rfl, rfl, spGet_cast32_toCOO _ i j, fun h => ?_⟩
  rw [spGet_cast32_toCOO _ i j, h]

/-- `roundF32` fixes `1`. -/
theorem roundF32_one : roundF32 (1 : ℚ) = 1 := by
  rw [roundF32, if_neg one_ne_zero, if_neg (by norm_num : ¬((1 : ℚ) < 0))]
  rw [abs_one, Int.log_one_right]
  have h1 : ((1 : ℚ) * 2 ^ ((23 : ℤ) - 0)) = 8388608 := by norm_num
  rw [h1]
  have h2 : rne (8388608 : ℚ) = 8388608 := by
    have hfl : ⌊(8388608 : ℚ)⌋ = 8388608 := by norm_num
    rw [rne, hfl]
    rw [if_pos (by norm_num)]
  rw [h2]
  norm_num

/-- Witness for C7 (amended) on a frame whose single feature value `1` is
binary32-representable: sparse and dense reads agree. -/
theorem get_numpy_dataset_sparse_vs_dense_witness :
    (roundF32 (dGet (featFrame oneFrame none).rows 0 0)
        = dGet (featFrame oneFrame none).rows 0 0)
    ∧ spGet (cooCast32 (toCOO (featFrame oneFrame none).rows)) 0 0
        = dGet (featFrame oneFrame none).rows 0 0 := by
  have hval : dGet (featFrame oneFrame none).rows 0 0 = 1 := rfl
  have hrep : roundF32 (dGet (featFrame oneFrame none).rows 0 0)
      = dGet (featFrame oneFrame none).rows 0 0 := by
    rw [hval, roundF32_one]
  exact ⟨hrep,
    (get_numpy_dataset_sparse_vs_dense oneFrame none [] 0 0).2.2.2 hrep⟩

/-- `roundF32` moves `0.1`: the nearest binary32 value to `1/10` is
`13421773/2^27`. -/
theorem roundF32_tenth : roundF32 ((1 : ℚ)/10) = 13421773 / 134217728 := by
  rw [roundF32, if_neg (by norm_num : ¬((1 : ℚ)/10 = 0)),
    if_neg (by norm_num : ¬((1 : ℚ)/10 < 0))]
  rw [show |(1 : ℚ)/10| = 1/10 from abs_of_pos (by norm_num)]
  have hlog : Int.log 2 ((1 : ℚ)/10) = -4 := by
    have hlo : (-4 : ℤ) ≤ Int.log 2 ((1 : ℚ)/10) :=
      (Int.zpow_le_iff_le_log (by norm_num) (by norm_num)).mp (by norm_num)
    have hhi : Int.log 2 ((1 : ℚ)/10) < -3 :=
      (Int.lt_zpow_iff_log_lt (by norm_num) (by norm_num)).mp (by norm_num)
    omega
  rw [hlog, show ((23 : ℤ) - -4) = 27 by norm_num,
    show ((1 : ℚ)/10 * 2 ^ (27 : ℤ)) = 134217728/10 by norm_num]
  have hrne : rne ((134217728 : ℚ)/10) = 13421773 := by
    have hfl : ⌊(134217728 : ℚ)/10⌋ = 13421772 := by norm_num
    rw [rne, hfl]
    rw [if_neg (by push_cast; norm_num), if_pos (by push_cast; norm_num)]
    norm_num
  rw [hrne]
  norm_num

/-- C7 counterexample: on a frame whose single feature value is `0.1`, the
sparse run's `astype('float32')` changes the stored value, so reading cell
`(0, 0)` from the sparse and from the dense `X` yields different numbers —
the two representations are not functionally equivalent as claimed. -/
theorem get_numpy_dataset_sparse_vs_dense_counterexample :
    (get_numpy_dataset tenthFrame none false true []).X
        = .sparse (cooCast32 (toCOO (featFrame tenthFrame none).rows))
    ∧ (get_numpy_dataset tenthFrame none false false []).X
        = .dense (featFrame tenthFrame none).rows
    ∧ spGet (cooCast32 (toCOO (featFrame tenthFrame none).rows)) 0 0
        ≠ dGet (featFrame tenthFrame none).rows 0 0 := by
  refine ⟨rfl, rfl, ?_⟩
  rw [spGet_cast32_toCOO]
  rw [show dGet (featFrame tenthFrame none).rows 0 0 = 1/10 from rfl]
  rw [roundF32_tenth]
  norm_num

end LearnHtml
